import Mathlib

/-!
Verification of the talky realtime dual-channel transcription core.

Shallow embedding of the Rust sources under `src-tauri/src`:
text post-processing (`audio_toolkit/text.rs`), the Silero VAD state
machine (`audio_toolkit/vad/silero.rs`), the AEC streaming wrapper
(`aec/mod.rs`), the audio pipeline (`audio_toolkit/pipeline.rs`), the
session store (`managers/session.rs`), the transcription manager
(`managers/transcription.rs`) and the session loop (`actions.rs`).

Modelling conventions:
* `f32`/`f64` arithmetic is embedded as `ℚ` (exact rationals); every
  comparison appearing in a proved concrete instance is far from the
  floating-point rounding error, so the branch taken is the same.
* Rust strings are embedded as `List Char`; `char::is_alphabetic`,
  `char::is_whitespace` and `to_lowercase` are modelled by the ASCII
  functions `Char.isAlpha`, `Char.isWhitespace`, `Char.toLower`
  (all inputs appearing in the claims are ASCII).
* External neural models (ONNX sessions), FFT kernels and irrational
  math (`sqrt`, `tanh`) are taken as function parameters, so theorems
  about the surrounding code hold for every behaviour of those parts.
-/

namespace Talky

/-- Unicode-whitespace test of Rust, restricted to ASCII whitespace. -/
def wsp (c : Char) : Bool := c.isWhitespace

/-- `str::trim`: remove leading and trailing whitespace. -/
def trimStr (s : List Char) : List Char :=
  ((s.dropWhile wsp).reverse.dropWhile wsp).reverse

/-- `str::to_lowercase`, ASCII fragment. -/
def lowerStr (s : List Char) : List Char := s.map Char.toLower

/-- Accumulator-based worker for `split_whitespace`. -/
def splitWsAux : List Char → List Char → List (List Char)
  | [], acc => if acc.isEmpty then [] else [acc.reverse]
  | c :: cs, acc =>
    if wsp c then
      if acc.isEmpty then splitWsAux cs [] else acc.reverse :: splitWsAux cs []
    else
      splitWsAux cs (c :: acc)

/-- `str::split_whitespace().collect()`: the whitespace-separated tokens. -/
def splitWs (s : List Char) : List (List Char) := splitWsAux s []

/-- `Vec<String>::join(" ")`. -/
def joinSp (ws : List (List Char)) : List Char := List.intercalate [' '] ws

/-- `strsim::levenshtein`: unit-cost edit distance over chars. -/
def levDist (a b : List Char) : ℕ := levenshtein Levenshtein.defaultCost a b

/-- `strsim::normalized_levenshtein`:
`1 - lev(a,b) / max(|a|,|b|)`, and `1` when both strings are empty. -/
def normalizedLevenshtein (a b : List Char) : ℚ :=
  if a.isEmpty && b.isEmpty then 1
  else 1 - (levDist a b : ℚ) / (max a.length b.length : ℚ)

/-- `is_duplicate_segment` from `audio_toolkit/text.rs` (lines 429-466):
time-overlap gate, then trim/lowercase, then similarity test. -/
def is_duplicate_segment (new_text : List Char) (new_start_ms new_end_ms : ℤ)
    (existing_text : List Char) (existing_start_ms existing_end_ms : ℤ)
    (similarity_threshold : ℚ) (time_overlap_threshold_ms : ℤ) : Bool :=
  let overlap := max (min new_end_ms existing_end_ms - max new_start_ms existing_start_ms) 0
  if overlap < time_overlap_threshold_ms then false
  else
    let new_normalized := lowerStr (trimStr new_text)
    let existing_normalized := lowerStr (trimStr existing_text)
    if new_normalized.isEmpty || existing_normalized.isEmpty then false
    else
      decide (normalizedLevenshtein new_normalized existing_normalized ≥ similarity_threshold)

/-- Whole-word case-insensitive comparison of the last `L` words of `prevW`
with the first `L` words of `newW` (the loop body of `remove_prefix_overlap`). -/
def overlapMatch (newW prevW : List (List Char)) (L : ℕ) : Bool :=
  decide (((prevW.drop (prevW.length - L)).map lowerStr) = ((newW.take L).map lowerStr))

/-- Descending search `hi, hi-1, …` for `n` steps, first hit wins
(the `(lo..=hi).rev()` loop shape). -/
def searchDownAux (p : ℕ → Bool) : ℕ → ℕ → Option ℕ
  | _, 0 => none
  | hi, n + 1 => if p hi then some hi else searchDownAux p (hi - 1) n

/-- First `L` with `p L` among `hi, hi-1, …, lo` (none if `lo > hi`). -/
def searchDown (p : ℕ → Bool) (lo hi : ℕ) : Option ℕ :=
  searchDownAux p hi (hi + 1 - lo)

/-- `remove_prefix_overlap` from `audio_toolkit/text.rs` (lines 272-310). -/
def remove_prefix_overlap (new_text previous_text : List Char)
    (min_overlap_words : ℕ) : List Char :=
  let new_words := splitWs new_text
  let prev_words := splitWs previous_text
  if new_words.isEmpty || prev_words.isEmpty then new_text
  else
    let max_overlap := min (min new_words.length prev_words.length) 10
    match searchDown (overlapMatch new_words prev_words) min_overlap_words max_overlap with
    | some L => joinSp (new_words.drop L)
    | none => new_text

lemma lowerStr_eq_nil_iff (s : List Char) : lowerStr s = [] ↔ s = [] := by
  simp [lowerStr]

/-- UTF-8 byte length of a string (`str::len`). -/
def byteLen (s : List Char) : ℕ := (s.map Char.utf8Size).sum

/-- `word.trim_matches(|c| !c.is_alphabetic())`. -/
def trimNonAlpha (w : List Char) : List Char :=
  ((w.dropWhile (fun c => !c.isAlpha)).reverse.dropWhile (fun c => !c.isAlpha)).reverse

/-- `preserve_case_pattern` from `audio_toolkit/text.rs` (lines 109-121). -/
def preserve_case_pattern (original replacement : List Char) : List Char :=
  if original.all (fun c => c.isUpper) then replacement.map Char.toUpper
  else if (original.head?.map Char.isUpper).getD false then
    match replacement with
    | [] => []
    | c :: cs => c.toUpper :: cs
  else replacement

/-- `extract_punctuation` from `audio_toolkit/text.rs` (lines 124-145):
the non-alphabetic head and tail of a word. -/
def extract_punctuation (word : List Char) : List Char × List Char :=
  (word.takeWhile (fun c => !c.isAlpha), (word.reverse.takeWhile (fun c => !c.isAlpha)).reverse)

/-- The inner candidate loop of `apply_custom_words`: fold over
`(original, lowercased)` custom-word pairs keeping the best accepted match.
`best_score` starts at `f64::MAX`, which no accepted score reaches, so the
initial accumulator is modelled as `none` (acceptance then only requires
`combined < threshold`). `sdx` is `natural::phonetics::soundex`, taken as a
parameter. -/
def levScore (cleaned cw : List Char) : ℚ :=
  if 0 < ((max (byteLen cleaned) (byteLen cw) : ℕ) : ℚ)
  then (levDist cleaned cw : ℚ) / ((max (byteLen cleaned) (byteLen cw) : ℕ) : ℚ)
  else 1

def customWordFold (sdx : List Char → List Char → Bool) (threshold : ℚ)
    (cleaned : List Char) (pairs : List (List Char × List Char)) :
    Option (List Char × ℚ) :=
  pairs.foldl (fun best p =>
    if ((byteLen cleaned : ℤ) - (byteLen p.2 : ℤ)).natAbs > 5 then best
    else
      let lenRatio : ℚ :=
        ((min (byteLen cleaned) (byteLen p.2) : ℕ) : ℚ) /
          ((max (byteLen cleaned) (byteLen p.2) : ℕ) : ℚ)
      let combined : ℚ := if sdx cleaned p.2 && decide (lenRatio > 4 / 5)
        then levScore cleaned p.2 * (1 / 2) else levScore cleaned p.2
      if (decide (combined < threshold) &&
          (match best with | none => true | some b => decide (combined < b.2)))
      then some (p.1, combined) else best) none

/-- Per-word body of `apply_custom_words`: clean the word, skip empty or
over-long cleaned forms, otherwise substitute the best accepted custom word
preserving case pattern and punctuation. -/
def correctWord (sdx : List Char → List Char → Bool) (threshold : ℚ)
    (pairs : List (List Char × List Char)) (word : List Char) : List Char :=
  let cleaned := lowerStr (trimNonAlpha word)
  if cleaned.isEmpty then word
  else if byteLen cleaned > 50 then word
  else
    match customWordFold sdx threshold cleaned pairs with
    | some r =>
      (extract_punctuation word).1 ++ preserve_case_pattern word r.1 ++
        (extract_punctuation word).2
    | none => word

/-- `apply_custom_words` from `audio_toolkit/text.rs` (lines 21-106),
parameterised by the soundex predicate `sdx`. -/
def apply_custom_words (sdx : List Char → List Char → Bool) (text : List Char)
    (custom_words : List (List Char)) (threshold : ℚ) : List Char :=
  if custom_words.isEmpty then text
  else
    joinSp ((splitWs text).map
      (correctWord sdx threshold (custom_words.map (fun w => (w, lowerStr w)))))

lemma searchDownAux_some (p : ℕ → Bool) :
    ∀ n hi L, searchDownAux p hi n = some L →
      p L = true ∧ hi + 1 - n ≤ L ∧ L ≤ hi ∧ ∀ M, L < M → M ≤ hi → p M = false := by
  intro n
  induction n with
  | zero => intro hi L h; simp [searchDownAux] at h
  | succ n ih =>
    intro hi L h
    simp only [searchDownAux] at h
    by_cases hp : p hi
    · rw [if_pos hp] at h
      obtain rfl : hi = L := by simpa using h
      exact ⟨hp, by omega, le_refl _, fun M h1 h2 => absurd (lt_of_lt_of_le h1 h2) (lt_irrefl _)⟩
    · rw [if_neg hp] at h
      obtain ⟨h1, h2, h3, h4⟩ := ih (hi - 1) L h
      refine ⟨h1, by omega, by omega, fun M hM1 hM2 => ?_⟩
      rcases eq_or_lt_of_le hM2 with rfl | hM3
      · exact Bool.eq_false_iff.mpr hp
      · exact h4 M hM1 (by omega)

lemma searchDownAux_none (p : ℕ → Bool) :
    ∀ n hi, searchDownAux p hi n = none →
      ∀ M, hi + 1 - n ≤ M → M ≤ hi → p M = false := by
  intro n
  induction n with
  | zero => intro hi _ M h1 h2; omega
  | succ n ih =>
    intro hi h M h1 h2
    simp only [searchDownAux] at h
    by_cases hp : p hi
    · rw [if_pos hp] at h; exact absurd h (by simp)
    · rw [if_neg hp] at h
      rcases eq_or_lt_of_le h2 with rfl | hM3
      · exact Bool.eq_false_iff.mpr hp
      · exact ih (hi - 1) h M (by omega) (by omega)

lemma customWordFold_single_reject (sdx : List Char → List Char → Bool) (t : ℚ)
    (cleaned orig cw : List Char)
    (h1 : ¬ levScore cleaned cw < t)
    (h2 : ¬ levScore cleaned cw * (1 / 2) < t) :
    customWordFold sdx t cleaned [(orig, cw)] = none := by
  have d1 : decide (levScore cleaned cw < t) = false := decide_eq_false h1
  have d2 : decide (levScore cleaned cw * (1 / 2) < t) = false := decide_eq_false h2
  simp only [customWordFold, List.foldl]
  split
  · rfl
  · cases hb : (sdx cleaned cw && decide
        (((min (byteLen cleaned) (byteLen cw) : ℕ) : ℚ) /
          ((max (byteLen cleaned) (byteLen cw) : ℕ) : ℚ) > 4 / 5))
    · simp [hb, d1, d2]
    · simp [hb, d1, d2]
      rw [one_div] at h2
      exact le_of_not_lt h2

lemma levScore_eval (c w : List Char) (lc lw d : ℕ) (hc : byteLen c = lc)
    (hw : byteLen w = lw) (hd : levDist c w = d) (h0 : 0 < max lc lw) :
    levScore c w = (d : ℚ) / ((max lc lw : ℕ) : ℚ) := by
  simp only [levScore, hc, hw, hd]
  rw [if_pos (by exact_mod_cast h0)]

lemma correctWord_id (sdx : List Char → List Char → Bool) (t : ℚ)
    (pairs : List (List Char × List Char)) (w : List Char)
    (h : customWordFold sdx t (lowerStr (trimNonAlpha w)) pairs = none) :
    correctWord sdx t pairs w = w := by
  simp only [correctWord, h]
  split
  · rfl
  · split <;> rfl

/-- **C2.** Contrary to the spec row E4 and to the repository's own test
`test_matches_similar_length_typo`, `apply_custom_words` on
`"meeting in zefyura"` with custom words `["Zephyra"]` and threshold `0.21`
returns the input unchanged: `lev("zefyura","zephyra") = 3`, so even with
the phonetic boost the combined score is `3/14 ≈ 0.2143`, which is not
strictly below `0.21`, whatever the soundex predicate returns. -/
theorem apply_custom_words_zefyura_bug :
    ∀ sdx : List Char → List Char → Bool,
      apply_custom_words sdx ("meeting in zefyura".data) ["Zephyra".data] (21 / 100)
          = "meeting in zefyura".data ∧
      apply_custom_words sdx ("meeting in zefyura".data) ["Zephyra".data] (21 / 100)
          ≠ "meeting in Zephyra".data := by
  intro sdx
  have key :
      apply_custom_words sdx ("meeting in zefyura".data) ["Zephyra".data] (21 / 100)
        = "meeting in zefyura".data := by
    simp only [apply_custom_words]
    rw [if_neg (by decide)]
    have hw : splitWs ("meeting in zefyura".data) =
        ["meeting".data, "in".data, "zefyura".data] := by decide
    have hp : ([("Zephyra".data)].map (fun w => (w, lowerStr w))) =
        [("Zephyra".data, "zephyra".data)] := by decide
    rw [hw, hp]
    have s1 : levScore (lowerStr (trimNonAlpha ("meeting".data))) ("zephyra".data)
        = (6 : ℚ) / 7 := by
      rw [levScore_eval _ _ 7 7 6 (by decide) (by decide) (by decide) (by norm_num)]
      norm_num
    have s2 : levScore (lowerStr (trimNonAlpha ("in".data))) ("zephyra".data)
        = (7 : ℚ) / 7 := by
      rw [levScore_eval _ _ 2 7 7 (by decide) (by decide) (by decide) (by norm_num)]
      norm_num
    have s3 : levScore (lowerStr (trimNonAlpha ("zefyura".data))) ("zephyra".data)
        = (3 : ℚ) / 7 := by
      rw [levScore_eval _ _ 7 7 3 (by decide) (by decide) (by decide) (by norm_num)]
      norm_num
    have c1 : correctWord sdx (21 / 100) [("Zephyra".data, "zephyra".data)]
        ("meeting".data) = "meeting".data :=
      correctWord_id _ _ _ _
        (customWordFold_single_reject _ _ _ _ _ (by rw [s1]; norm_num)
          (by rw [s1]; norm_num))
    have c2 : correctWord sdx (21 / 100) [("Zephyra".data, "zephyra".data)]
        ("in".data) = "in".data :=
      correctWord_id _ _ _ _
        (customWordFold_single_reject _ _ _ _ _ (by rw [s2]; norm_num)
          (by rw [s2]; norm_num))
    have c3 : correctWord sdx (21 / 100) [("Zephyra".data, "zephyra".data)]
        ("zefyura".data) = "zefyura".data :=
      correctWord_id _ _ _ _
        (customWordFold_single_reject _ _ _ _ _ (by rw [s3]; norm_num)
          (by rw [s3]; norm_num))
    rw [List.map_cons, List.map_cons, List.map_cons, List.map_nil, c1, c2, c3]
    decide
  exact ⟨key, by rw [key]; decide⟩

/-- **C4.** `is_duplicate_segment`: (i) overlap strictly below the threshold
forces `false` regardless of the texts; (ii) an empty trimmed text forces
`false`; (iii) otherwise the result is `true` iff the normalised Levenshtein
similarity of the trimmed, lowercased texts reaches the similarity threshold;
(iv) the E8 instance returns `false` (overlap is 400 ms < 500 ms). -/
theorem is_duplicate_segment_spec :
    (∀ (nt : List Char) (ns ne : ℤ) (et : List Char) (es ee : ℤ) (st : ℚ) (ot : ℤ),
        max (min ne ee - max ns es) 0 < ot →
        is_duplicate_segment nt ns ne et es ee st ot = false)
  ∧ (∀ (nt : List Char) (ns ne : ℤ) (et : List Char) (es ee : ℤ) (st : ℚ) (ot : ℤ),
        trimStr nt = [] ∨ trimStr et = [] →
        is_duplicate_segment nt ns ne et es ee st ot = false)
  ∧ (∀ (nt : List Char) (ns ne : ℤ) (et : List Char) (es ee : ℤ) (st : ℚ) (ot : ℤ),
        ot ≤ max (min ne ee - max ns es) 0 →
        trimStr nt ≠ [] → trimStr et ≠ [] →
        (is_duplicate_segment nt ns ne et es ee st ot = true ↔
          normalizedLevenshtein (lowerStr (trimStr nt)) (lowerStr (trimStr et)) ≥ st))
  ∧ is_duplicate_segment ("Hello world".data) 1000 2000 ("Hello world".data) 1600 3000
      (3 / 4) 500 = false := by
  refine ⟨?_, ?_, ?_, by decide⟩
  · intro nt ns ne et es ee st ot h
    simp only [is_duplicate_segment]
    rw [if_pos h]
  · intro nt ns ne et es ee st ot h
    simp only [is_duplicate_segment]
    split
    · rfl
    · rcases h with h | h <;> simp [lowerStr, h]
  · intro nt ns ne et es ee st ot hov hn he
    simp only [is_duplicate_segment]
    rw [if_neg (not_lt.mpr hov)]
    rw [if_neg (by simp [List.isEmpty_iff, lowerStr_eq_nil_iff, hn, he])]
    exact decide_eq_true_iff

/-- Witness for `is_duplicate_segment_spec`: part (i) at a concrete input. -/
theorem is_duplicate_segment_spec_witness :
    is_duplicate_segment ("abc".data) 0 0 ("abd".data) 10 20 1 300 = false :=
  is_duplicate_segment_spec.1 _ 0 0 _ 10 20 1 300 (by decide)

/-- **C5.** `remove_prefix_overlap` searches overlap lengths from
`min(|new|,|prev|,10)` down to `min_overlap_words`; at the first (hence
greatest) length at which the lowercased word suffix of `prev` equals the
word prefix of `new` it returns `new` stripped of that word prefix; if no
length matches (or either side has no words) it returns `new` unchanged;
and concretely E9 holds. -/
theorem remove_prefix_overlap_spec :
    (∀ (new_text prev : List Char) (k : ℕ),
        splitWs new_text = [] ∨ splitWs prev = [] →
        remove_prefix_overlap new_text prev k = new_text)
  ∧ (∀ (new_text prev : List Char) (k : ℕ),
        (∀ L, k ≤ L →
          L ≤ min (min (splitWs new_text).length (splitWs prev).length) 10 →
          overlapMatch (splitWs new_text) (splitWs prev) L = false) →
        remove_prefix_overlap new_text prev k = new_text)
  ∧ (∀ (new_text prev : List Char) (k L0 : ℕ),
        splitWs new_text ≠ [] → splitWs prev ≠ [] →
        k ≤ L0 → L0 ≤ min (min (splitWs new_text).length (splitWs prev).length) 10 →
        overlapMatch (splitWs new_text) (splitWs prev) L0 = true →
        ∃ L, k ≤ L ∧ L ≤ min (min (splitWs new_text).length (splitWs prev).length) 10 ∧
          overlapMatch (splitWs new_text) (splitWs prev) L = true ∧
          (∀ M, L < M →
            M ≤ min (min (splitWs new_text).length (splitWs prev).length) 10 →
            overlapMatch (splitWs new_text) (splitWs prev) M = false) ∧
          remove_prefix_overlap new_text prev k = joinSp ((splitWs new_text).drop L))
  ∧ remove_prefix_overlap ("world this is new".data) ("hello world this".data) 2
      = "is new".data := by
  refine ⟨?_, ?_, ?_, by decide⟩
  · intro new_text prev k h
    simp only [remove_prefix_overlap]
    rw [if_pos (by rcases h with h | h <;> simp [h])]
  · intro new_text prev k hall
    simp only [remove_prefix_overlap]
    split
    · rfl
    · rcases hs : searchDown (overlapMatch (splitWs new_text) (splitWs prev)) k
          (min (min (splitWs new_text).length (splitWs prev).length) 10) with _ | L
      · rfl
      · obtain ⟨h1, h2, h3, _⟩ := searchDownAux_some _ _ _ _ hs
        exact absurd h1 (by simp [hall L (by omega) h3])
  · intro new_text prev k L0 hn hp hk hle hm
    simp only [remove_prefix_overlap]
    rw [if_neg (by simp [hn, hp])]
    rcases hs : searchDown (overlapMatch (splitWs new_text) (splitWs prev)) k
        (min (min (splitWs new_text).length (splitWs prev).length) 10) with _ | L
    · exact absurd (searchDownAux_none _ _ _ hs L0 (by omega) hle) (by simp [hm])
    · obtain ⟨h1, h2, h3, h4⟩ := searchDownAux_some _ _ _ _ hs
      exact ⟨L, by omega, h3, h1, h4, rfl⟩

/-- Witness for `remove_prefix_overlap_spec`: the no-words case at a
concrete input. -/
theorem remove_prefix_overlap_spec_witness :
    remove_prefix_overlap ("   ".data) ("hello".data) 2 = "   ".data :=
  remove_prefix_overlap_spec.1 _ _ 2 (Or.inl (by decide))

/-! ## VAD state machine (`audio_toolkit/vad/silero.rs`) -/

inductive VadState where
  | Silence : VadState
  | Speech : VadState
deriving DecidableEq, Repr

inductive VadTransition where
  | SpeechStart : VadTransition
  | SpeechEnd : VadTransition
  | None : VadTransition
deriving DecidableEq, Repr

structure SileroVad where
  threshold : ℚ
  state : VadState
  current_prob : ℚ
  onset_frames : ℕ
  hangover_frames : ℕ
  onset_counter : ℕ
  hangover_counter : ℕ
deriving Repr

/-- The machine as built by `SileroVad::new` (with `with_smoothing`):
Silence, zero counters, zero probability. -/
def SileroVad.init (τ : ℚ) (o h : ℕ) : SileroVad :=
  ⟨τ, VadState.Silence, 0, o, h, 0, 0⟩

/-- `SileroVad::process_frame` (lines 65-120), given the neural detector's
probability for the frame (the `vad_rs` model is external, so the frame is
abstracted to its probability). -/
def process_frame (v : SileroVad) (prob : ℚ) : SileroVad × VadTransition :=
  let v1 : SileroVad := { v with current_prob := prob }
  match v1.state, decide (prob > v1.threshold) with
  | VadState.Silence, true =>
    if v1.onset_counter + 1 ≥ v1.onset_frames then
      ({ v1 with state := VadState.Speech, onset_counter := 0, hangover_counter := 0 },
        VadTransition.SpeechStart)
    else
      ({ v1 with onset_counter := v1.onset_counter + 1, hangover_counter := 0 },
        VadTransition.None)
  | VadState.Silence, false =>
    ({ v1 with onset_counter := 0 }, VadTransition.None)
  | VadState.Speech, true =>
    ({ v1 with hangover_counter := 0 }, VadTransition.None)
  | VadState.Speech, false =>
    if v1.hangover_counter + 1 ≥ v1.hangover_frames then
      ({ v1 with state := VadState.Silence, hangover_counter := 0 }, VadTransition.SpeechEnd)
    else
      ({ v1 with hangover_counter := v1.hangover_counter + 1 }, VadTransition.None)

/-- The transitions emitted over a sequence of frame probabilities. -/
def runVad : SileroVad → List ℚ → List VadTransition
  | _, [] => []
  | v, p :: ps => (process_frame v p).2 :: runVad (process_frame v p).1 ps

/-- The machine state seen just before each frame. -/
def vadStates : SileroVad → List ℚ → List VadState
  | _, [] => []
  | v, p :: ps => v.state :: vadStates (process_frame v p).1 ps

/-- Length of the maximal suffix of `l` whose elements all satisfy `f`,
counted on top of a seed (the count carried in from an earlier prefix). -/
def trailFrom (f : ℚ → Bool) (seed : ℕ) (l : List ℚ) : ℕ :=
  l.foldl (fun acc p => if f p then acc + 1 else 0) seed

/-- Strict alternation check: from an expected side, `SpeechStart` is legal
only out of Silence and `SpeechEnd` only out of Speech. -/
def altOk : VadState → List VadTransition → Bool
  | _, [] => true
  | st, VadTransition.None :: ts => altOk st ts
  | VadState.Silence, VadTransition.SpeechStart :: ts => altOk VadState.Speech ts
  | VadState.Speech, VadTransition.SpeechEnd :: ts => altOk VadState.Silence ts
  | _, _ :: _ => false

lemma trailFrom_cons (f : ℚ → Bool) (s : ℕ) (p : ℚ) (l : List ℚ) :
    trailFrom f s (p :: l) = trailFrom f (if f p then s + 1 else 0) l := rfl

lemma process_frame_sil_fire (v : SileroVad) (p : ℚ) (hst : v.state = VadState.Silence)
    (hsp : v.threshold < p) (hfire : v.onset_counter + 1 ≥ v.onset_frames) :
    process_frame v p =
      ({ v with current_prob := p, state := VadState.Speech, onset_counter := 0, hangover_counter := 0 }, VadTransition.SpeechStart) := by
  simp [process_frame, hst, hsp, hfire]

lemma process_frame_sil_cnt (v : SileroVad) (p : ℚ) (hst : v.state = VadState.Silence)
    (hsp : v.threshold < p) (hfire : ¬ v.onset_counter + 1 ≥ v.onset_frames) :
    process_frame v p =
      ({ v with current_prob := p, onset_counter := v.onset_counter + 1, hangover_counter := 0 }, VadTransition.None) := by
  simp [process_frame, hst, hsp, hfire]

lemma process_frame_sil_sil (v : SileroVad) (p : ℚ) (hst : v.state = VadState.Silence)
    (hsp : ¬ v.threshold < p) :
    process_frame v p =
      ({ v with current_prob := p, onset_counter := 0 }, VadTransition.None) := by
  simp [process_frame, hst, hsp]

lemma process_frame_sp_sp (v : SileroVad) (p : ℚ) (hst : v.state = VadState.Speech)
    (hsp : v.threshold < p) :
    process_frame v p =
      ({ v with current_prob := p, hangover_counter := 0 }, VadTransition.None) := by
  simp [process_frame, hst, hsp]

lemma process_frame_sp_fire (v : SileroVad) (p : ℚ) (hst : v.state = VadState.Speech)
    (hsp : ¬ v.threshold < p) (hfire : v.hangover_counter + 1 ≥ v.hangover_frames) :
    process_frame v p =
      ({ v with current_prob := p, state := VadState.Silence, hangover_counter := 0 }, VadTransition.SpeechEnd) := by
  simp [process_frame, hst, hsp, hfire]

lemma process_frame_sp_cnt (v : SileroVad) (p : ℚ) (hst : v.state = VadState.Speech)
    (hsp : ¬ v.threshold < p) (hfire : ¬ v.hangover_counter + 1 ≥ v.hangover_frames) :
    process_frame v p =
      ({ v with current_prob := p, hangover_counter := v.hangover_counter + 1 }, VadTransition.None) := by
  simp [process_frame, hst, hsp, hfire]

lemma vad_run_spec (τ : ℚ) (o h : ℕ) (ho : 1 ≤ o) (hh : 1 ≤ h) :
    ∀ (probs : List ℚ) (v : SileroVad) (cs ch : ℕ),
      v.threshold = τ → v.onset_frames = o → v.hangover_frames = h →
      ((v.state = VadState.Silence ∧ v.onset_counter = cs ∧ cs < o) ∨
        (v.state = VadState.Speech ∧ v.hangover_counter = ch ∧ ch < h ∧
          v.onset_counter = 0)) →
      (∀ i, i < probs.length →
        ((runVad v probs)[i]? = some VadTransition.SpeechStart ↔
          (vadStates v probs)[i]? = some VadState.Silence ∧
            trailFrom (fun p => decide (τ < p)) cs (probs.take (i + 1)) = o) ∧
        ((runVad v probs)[i]? = some VadTransition.SpeechEnd ↔
          (vadStates v probs)[i]? = some VadState.Speech ∧
            trailFrom (fun p => decide (p ≤ τ)) ch (probs.take (i + 1)) = h)) ∧
      altOk v.state (runVad v probs) = true := by
  intro probs
  induction probs with
  | nil =>
    intro v cs ch h1 h2 h3 hinv
    exact ⟨fun i hi => absurd hi (by simp), by simp [runVad, altOk]⟩
  | cons p ps ih =>
    intro v cs ch h1 h2 h3 hinv
    by_cases hsp : τ < p
    · rcases hinv with ⟨hst, hoc, hlt⟩ | ⟨hst, hhc, hlt, hoc0⟩
      · by_cases hfire : cs + 1 ≥ o
        · -- Silence, speech frame, SpeechStart fires
          have hpf := process_frame_sil_fire v p hst (h1 ▸ hsp) (by omega)
          have H := ih { v with current_prob := p, state := VadState.Speech, onset_counter := 0, hangover_counter := 0 } (cs + 1) 0 h1 h2 h3 (Or.inr ⟨rfl, rfl, by omega, rfl⟩)
          refine ⟨fun i hi => ?_, ?_⟩
          · cases i with
            | zero =>
              simp [runVad, vadStates, hpf, trailFrom_cons, trailFrom, hsp,
                not_le.mpr hsp, hst]
              omega
            | succ j =>
              simp only [runVad, vadStates, hpf, List.getElem?_cons_succ,
                List.take_succ_cons, trailFrom_cons, decide_eq_true_eq, hsp,
                not_le.mpr hsp, if_true, if_false, ite_true, ite_false]
              exact H.1 j (by simp only [List.length_cons] at hi; omega)
          · simp only [runVad, hpf, altOk, hst]
            simpa only [hst] using H.2
        · -- Silence, speech frame, counter advances
          have hpf := process_frame_sil_cnt v p hst (h1 ▸ hsp) (by omega)
          have H := ih { v with current_prob := p, onset_counter := v.onset_counter + 1, hangover_counter := 0 } (cs + 1) 0 h1 h2 h3 (Or.inl ⟨hst, by simp [hoc], by omega⟩)
          refine ⟨fun i hi => ?_, ?_⟩
          · cases i with
            | zero =>
              simp [runVad, vadStates, hpf, trailFrom_cons, trailFrom, hsp,
                not_le.mpr hsp, hst]
              omega
            | succ j =>
              simp only [runVad, vadStates, hpf, List.getElem?_cons_succ,
                List.take_succ_cons, trailFrom_cons, decide_eq_true_eq, hsp,
                not_le.mpr hsp, if_true, if_false, ite_true, ite_false]
              exact H.1 j (by simp only [List.length_cons] at hi; omega)
          · simp only [runVad, hpf, altOk, hst]
            simpa only [hst] using H.2
      · -- Speech, speech frame
        have hpf := process_frame_sp_sp v p hst (h1 ▸ hsp)
        have H := ih { v with current_prob := p, hangover_counter := 0 } (cs + 1) 0 h1 h2 h3 (Or.inr ⟨hst, rfl, by omega, hoc0⟩)
        refine ⟨fun i hi => ?_, ?_⟩
        · cases i with
          | zero =>
            simp [runVad, vadStates, hpf, trailFrom_cons, trailFrom, hsp,
              not_le.mpr hsp, hst]
            omega
          | succ j =>
            simp only [runVad, vadStates, hpf, List.getElem?_cons_succ,
              List.take_succ_cons, trailFrom_cons, decide_eq_true_eq, hsp,
              not_le.mpr hsp, if_true, if_false, ite_true, ite_false]
            exact H.1 j (by simp only [List.length_cons] at hi; omega)
        · simp only [runVad, hpf, altOk, hst]
          simpa only [hst] using H.2
    · have hle : p ≤ τ := not_lt.mp hsp
      rcases hinv with ⟨hst, hoc, hlt⟩ | ⟨hst, hhc, hlt, hoc0⟩
      · -- Silence, silence frame
        have hpf := process_frame_sil_sil v p hst (h1 ▸ hsp)
        have H := ih { v with current_prob := p, onset_counter := 0 } 0 (ch + 1) h1 h2 h3 (Or.inl ⟨hst, rfl, by omega⟩)
        refine ⟨fun i hi => ?_, ?_⟩
        · cases i with
          | zero =>
            simp [runVad, vadStates, hpf, trailFrom_cons, trailFrom, hsp, hle, hst]
            omega
          | succ j =>
            simp only [runVad, vadStates, hpf, List.getElem?_cons_succ,
              List.take_succ_cons, trailFrom_cons, decide_eq_true_eq, hsp, hle,
              if_true, if_false, ite_true, ite_false]
            exact H.1 j (by simp only [List.length_cons] at hi; omega)
        · simp only [runVad, hpf, altOk, hst]
          simpa only [hst] using H.2
      · by_cases hfire : ch + 1 ≥ h
        · -- Speech, silence frame, SpeechEnd fires
          have hpf := process_frame_sp_fire v p hst (h1 ▸ hsp) (by omega)
          have H := ih { v with current_prob := p, state := VadState.Silence, hangover_counter := 0 } 0 (ch + 1) h1 h2 h3 (Or.inl ⟨rfl, hoc0, by omega⟩)
          refine ⟨fun i hi => ?_, ?_⟩
          · cases i with
            | zero =>
              simp [runVad, vadStates, hpf, trailFrom_cons, trailFrom, hsp, hle, hst]
              omega
            | succ j =>
              simp only [runVad, vadStates, hpf, List.getElem?_cons_succ,
                List.take_succ_cons, trailFrom_cons, decide_eq_true_eq, hsp, hle,
                if_true, if_false, ite_true, ite_false]
              exact H.1 j (by simp only [List.length_cons] at hi; omega)
          · simp only [runVad, hpf, altOk, hst]
            simpa only [hst] using H.2
        · -- Speech, silence frame, hangover advances
          have hpf := process_frame_sp_cnt v p hst (h1 ▸ hsp) (by omega)
          have H := ih { v with current_prob := p, hangover_counter := v.hangover_counter + 1 } 0 (ch + 1) h1 h2 h3 (Or.inr ⟨hst, by simp [hhc], by omega, hoc0⟩)
          refine ⟨fun i hi => ?_, ?_⟩
          · cases i with
            | zero =>
              simp [runVad, vadStates, hpf, trailFrom_cons, trailFrom, hsp, hle, hst]
              omega
            | succ j =>
              simp only [runVad, vadStates, hpf, List.getElem?_cons_succ,
                List.take_succ_cons, trailFrom_cons, decide_eq_true_eq, hsp, hle,
                if_true, if_false, ite_true, ite_false]
              exact H.1 j (by simp only [List.length_cons] at hi; omega)
          · simp only [runVad, hpf, altOk, hst]
            simpa only [hst] using H.2

/-- **C3.** The VAD state machine: for every sequence of frame
probabilities, `SpeechStart` is emitted exactly on the frames where, with
the machine in Silence, the count of consecutive frames with probability
above the threshold reaches `onset_frames`, and `SpeechEnd` exactly on the
frames where, with the machine in Speech, the count of consecutive frames
with probability at or below the threshold reaches `hangover_frames`; all
other frames emit no transition, and the emitted `SpeechStart`/`SpeechEnd`
events strictly alternate starting from Silence. -/
theorem vad_state_machine_spec (τ : ℚ) (o h : ℕ) (ho : 1 ≤ o) (hh : 1 ≤ h)
    (probs : List ℚ) :
    (∀ i, i < probs.length →
      ((runVad (SileroVad.init τ o h) probs)[i]? = some VadTransition.SpeechStart ↔
        (vadStates (SileroVad.init τ o h) probs)[i]? = some VadState.Silence ∧
          trailFrom (fun p => decide (τ < p)) 0 (probs.take (i + 1)) = o) ∧
      ((runVad (SileroVad.init τ o h) probs)[i]? = some VadTransition.SpeechEnd ↔
        (vadStates (SileroVad.init τ o h) probs)[i]? = some VadState.Speech ∧
          trailFrom (fun p => decide (p ≤ τ)) 0 (probs.take (i + 1)) = h)) ∧
    altOk VadState.Silence (runVad (SileroVad.init τ o h) probs) = true := by
  exact vad_run_spec τ o h ho hh probs (SileroVad.init τ o h) 0 0 rfl rfl rfl
    (Or.inl ⟨rfl, rfl, by omega⟩)

/-- Witness for `vad_state_machine_spec` at the default smoothing
parameters and a concrete probability sequence. -/
theorem vad_state_machine_spec_witness :
    altOk VadState.Silence (runVad (SileroVad.init 0 2 5) [1, 1, 0]) = true :=
  (vad_state_machine_spec 0 2 5 (by norm_num) (by norm_num) [1, 1, 0]).2

/-! ## Audio preprocessing (`audio_toolkit/preprocessing.rs`) -/

/-- Irrational real functions used by the audio path (`sqrt`, `tanh`, and
the `sin`/`cos` of the biquad design), taken as parameters since they have
no exact rational embedding. -/
structure RealFns where
  sqrt : ℚ → ℚ
  tanh : ℚ → ℚ

/-- `BiquadState`: RBJ cookbook coefficients plus filter memory. -/
structure BiquadState where
  b0 : ℚ
  b1 : ℚ
  b2 : ℚ
  a1 : ℚ
  a2 : ℚ
  x1 : ℚ
  x2 : ℚ
  y1 : ℚ
  y2 : ℚ

/-- `BiquadState::process`: one sample through the second-order IIR filter. -/
def BiquadState.processSample (s : BiquadState) (x : ℚ) : BiquadState × ℚ :=
  let y := s.b0 * x + s.b1 * s.x1 + s.b2 * s.x2 - s.a1 * s.y1 - s.a2 * s.y2
  ({ s with x2 := s.x1, x1 := x, y2 := s.y1, y1 := y }, y)

/-- Left-to-right stateful map (the in-place sample loops of the Rust code). -/
def mapAccumL (f : σ → α → σ × β) : σ → List α → σ × List β
  | s, [] => (s, [])
  | s, x :: xs =>
    let r1 := f s x
    let r2 := mapAccumL f r1.1 xs
    (r2.1, r1.2 :: r2.2)

structure AudioPreprocessor where
  hpf_state : BiquadState
  dc_alpha : ℚ
  dc_offset : ℚ
  target_rms : ℚ

/-- `soft_clip`: tanh-based saturation above `|x| = 0.5`. -/
def soft_clip (fns : RealFns) (x : ℚ) : ℚ :=
  if |x| < 1 / 2 then x
  else (if x < 0 then -1 else 1) * (1 / 2 + 1 / 2 * fns.tanh (2 * (|x| - 1 / 2)))

/-- `AudioPreprocessor::process`: DC removal, high-pass biquad, then RMS
normalisation with clamped gain and soft clipping. Returns the updated
filter state together with the processed samples (the Rust code mutates
in place). -/
def AudioPreprocessor.process (fns : RealFns) (pp : AudioPreprocessor)
    (samples : List ℚ) : AudioPreprocessor × List ℚ :=
  if samples.isEmpty then (pp, samples)
  else
    let dcr := mapAccumL
      (fun d x =>
        let d2 := pp.dc_alpha * d + (1 - pp.dc_alpha) * x
        (d2, x - d2)) pp.dc_offset samples
    let hpr := mapAccumL BiquadState.processSample pp.hpf_state dcr.2
    let pp2 : AudioPreprocessor :=
      { pp with dc_offset := dcr.1, hpf_state := hpr.1 }
    let s2 := hpr.2
    let rms := if s2.isEmpty then 0
      else fns.sqrt (((s2.map (fun x => x * x)).sum) / (s2.length : ℚ))
    if rms > 1 / 1000000 then
      let gain := pp.target_rms / rms
      let clamped_gain := min (max gain (1 / 10)) 10
      (pp2, s2.map (fun x => soft_clip fns (clamped_gain * x)))
    else
      (pp2, s2)

lemma mapAccumL_length (f : σ → α → σ × β) :
    ∀ (s : σ) (l : List α), (mapAccumL f s l).2.length = l.length := by
  intro s l
  induction l generalizing s with
  | nil => simp [mapAccumL]
  | cons x xs ih => simp [mapAccumL, ih]

lemma AudioPreprocessor.process_length (fns : RealFns) (pp : AudioPreprocessor)
    (samples : List ℚ) : (pp.process fns samples).2.length = samples.length := by
  simp only [AudioPreprocessor.process]
  split
  · rfl
  · split <;> simp [mapAccumL_length] <;> split <;> simp [mapAccumL_length]

/-! ## AEC (`aec/mod.rs`) -/

/-- `CircularBuffer`: fixed-size overlap-add buffer. -/
structure CircularBuffer where
  buffer : List ℚ
  block_len : ℕ
  block_shift : ℕ

def CircularBuffer.new (bl bs : ℕ) : CircularBuffer :=
  ⟨List.replicate bl 0, bl, bs⟩

/-- `CircularBuffer::push_chunk`: rotate left by `block_shift`, copy the
incoming samples into the tail, zero-fill any remainder. -/
def CircularBuffer.push_chunk (cb : CircularBuffer) (chunk : List ℚ) : CircularBuffer :=
  let rotated := cb.buffer.rotate cb.block_shift
  let copy_len := min chunk.length cb.block_shift
  { cb with buffer :=
      rotated.take (cb.block_len - cb.block_shift) ++ chunk.take copy_len ++
        List.replicate (cb.block_shift - copy_len) 0 }

/-- `CircularBuffer::shift_and_accumulate`: rotate left, zero the tail,
then add `data` element-wise from the front (overlap-add). -/
def CircularBuffer.shift_and_accumulate (cb : CircularBuffer) (data : List ℚ) :
    CircularBuffer :=
  let shifted := (cb.buffer.rotate cb.block_shift).take (cb.block_len - cb.block_shift) ++
    List.replicate cb.block_shift 0
  { cb with buffer :=
      (List.zipWith (fun a b => a + b) (shifted.take data.length) data) ++
        shifted.drop data.length }

/-- `CircularBuffer::clear`. -/
def CircularBuffer.clear (cb : CircularBuffer) : CircularBuffer :=
  { cb with buffer := List.replicate cb.buffer.length 0 }

/-- The external kernels of the AEC: the real FFT pair of `realfft`, the
complex magnitude (`Complex::norm`, a square root), and the two ONNX
models. The models return `(output, new state)` or an inference error.
Model states are abstract sample lists. -/
structure AecExt where
  fft : List ℚ → List (ℚ × ℚ)
  ifft : List (ℚ × ℚ) → List ℚ
  cnorm : ℚ × ℚ → ℚ
  run1 : List ℚ → List ℚ → List ℚ → Except String (List ℚ × List ℚ)
  run2 : List ℚ → List ℚ → List ℚ → Except String (List ℚ × List ℚ)

structure AEC where
  block_len : ℕ
  block_shift : ℕ
  states_1 : List ℚ
  states_2 : List ℚ
  in_buffer : CircularBuffer
  in_buffer_lpb : CircularBuffer
  out_buffer : CircularBuffer

/-- `AEC::new` with `BLOCK_SIZE = 512`, `BLOCK_SHIFT = 128`,
zero-initialised states (`[1,2,128,2]` f32 = 512 zeros). -/
def AEC.new : AEC :=
  ⟨512, 128, List.replicate 512 0, List.replicate 512 0,
    CircularBuffer.new 512 128, CircularBuffer.new 512 128, CircularBuffer.new 512 128⟩

/-- Well-formedness of a circular buffer with respect to the AEC block
parameters: consistent sizes and a full backing buffer. -/
def CircularBuffer.wf (cb : CircularBuffer) (bl bs : ℕ) : Prop :=
  cb.block_len = bl ∧ cb.block_shift = bs ∧ cb.buffer.length = bl

/-- Invariants established by `AEC::new` and preserved by processing. -/
def AEC.wf (a : AEC) : Prop :=
  0 < a.block_shift ∧ a.block_shift ≤ a.block_len ∧
  a.in_buffer.wf a.block_len a.block_shift ∧
  a.in_buffer_lpb.wf a.block_len a.block_shift ∧
  a.out_buffer.wf a.block_len a.block_shift

lemma CircularBuffer.push_chunk_wf (cb : CircularBuffer) (chunk : List ℚ)
    (bl bs : ℕ) (h : cb.wf bl bs) (hbs : bs ≤ bl) :
    (cb.push_chunk chunk).wf bl bs := by
  obtain ⟨h1, h2, h3⟩ := h
  refine ⟨h1, h2, ?_⟩
  simp [CircularBuffer.push_chunk, h1, h2, h3]
  omega

lemma CircularBuffer.shift_and_accumulate_wf (cb : CircularBuffer) (data : List ℚ)
    (bl bs : ℕ) (h : cb.wf bl bs) (hbs : bs ≤ bl) (hd : data.length ≤ bl) :
    (cb.shift_and_accumulate data).wf bl bs := by
  obtain ⟨h1, h2, h3⟩ := h
  refine ⟨h1, h2, ?_⟩
  simp [CircularBuffer.shift_and_accumulate, h1, h2, h3]
  omega

/-- One iteration of the block loop of `AEC::_process_internal`: push the
incoming chunks, FFT both buffers, apply model 1 as a spectral mask,
inverse-FFT with `1/BLOCK` normalisation, refine with model 2, overlap-add
into the out buffer and emit its first `emitLen` samples. Shape mismatches
of the external kernels are inference errors (`into_shape_with_order` /
`realfft` failures). The mutated state is returned also on error, as the
Rust `?` operator leaves the already-applied mutations in place. -/
def processBlockCore (ext : AecExt) (a1 : AEC) (emitLen : ℕ) :
    AEC × Except String (List ℚ) :=
  let inF := ext.fft a1.in_buffer.buffer
  let lpbF := ext.fft a1.in_buffer_lpb.buffer
  if inF.length ≠ a1.block_len / 2 + 1 ∨ lpbF.length ≠ a1.block_len / 2 + 1 then
    (a1, Except.error "fft shape")
  else
    match ext.run1 (inF.map ext.cnorm) a1.states_1 (lpbF.map ext.cnorm) with
    | Except.error e => (a1, Except.error e)
    | Except.ok r1 =>
      if r1.1.length ≠ a1.block_len / 2 + 1 ∨ r1.2.length ≠ 512 then
        (a1, Except.error "model 1 shape")
      else
        let a2 := { a1 with states_1 := r1.2 }
        let est0 := ext.ifft (List.zipWith (fun c m => (c.1 * m, c.2 * m)) inF r1.1)
        if est0.length ≠ a2.block_len then (a2, Except.error "ifft shape")
        else
          let est := est0.map (fun x => x * (1 / (a2.block_len : ℚ)))
          match ext.run2 est a2.states_2 a2.in_buffer_lpb.buffer with
          | Except.error e => (a2, Except.error e)
          | Except.ok r2 =>
            if r2.1.length ≠ a2.block_len ∨ r2.2.length ≠ 512 then
              (a2, Except.error "model 2 shape")
            else
              let a3 := { a2 with states_2 := r2.2, out_buffer := a2.out_buffer.shift_and_accumulate r2.1 }
              (a3, Except.ok (a3.out_buffer.buffer.take emitLen))

/-- One iteration of the block loop, including the chunk pushes guarded by
`chunk_len > 0`. -/
def processBlock (ext : AecExt) (a : AEC) (mc lc : List ℚ) (emitLen : ℕ) :
    AEC × Except String (List ℚ) :=
  processBlockCore ext
    (if 0 < mc.length then
      { a with in_buffer := a.in_buffer.push_chunk mc, in_buffer_lpb := a.in_buffer_lpb.push_chunk lc }
     else a) emitLen

/-- The `for idx in 0..num_blocks` loop: fold `processBlock` over the block
descriptors, concatenating the emitted output stretches. -/
def processLoop (ext : AecExt) : AEC → List (List ℚ × List ℚ × ℕ) →
    AEC × Except String (List ℚ)
  | a, [] => (a, Except.ok [])
  | a, b :: rest =>
    match processBlock ext a b.1 b.2.1 b.2.2 with
    | (a2, Except.error e) => (a2, Except.error e)
    | (a2, Except.ok em) =>
      match processLoop ext a2 rest with
      | (a3, Except.error e) => (a3, Except.error e)
      | (a3, Except.ok ems) => (a3, Except.ok (em ++ ems))

/-- `AEC::normalize_output`: rescale to peak 0.99 when the peak exceeds 1. -/
def normalize_output (out : List ℚ) : List ℚ :=
  let mx := out.foldl (fun m x => max m |x|) 0
  if mx > 1 then out.map (fun x => x * (99 / 100 / mx)) else out

/-- `AEC::_process_internal` (lines 245-321): cut the aligned inputs into
`block_shift`-sized chunks, run the block loop, pad the unprocessed tail
with the zeros the output vector was initialised with, and normalise. -/
def _process_internal (ext : AecExt) (a : AEC) (audio lpb : List ℚ) :
    AEC × Except String (List ℚ) :=
  let nb := audio.length / a.block_shift
  let blocks := (List.range nb).map (fun i =>
    ((audio.drop (i * a.block_shift)).take a.block_shift,
      (lpb.drop (i * a.block_shift)).take a.block_shift,
      min a.block_shift (audio.length - i * a.block_shift)))
  match processLoop ext a blocks with
  | (a2, Except.error e) => (a2, Except.error e)
  | (a2, Except.ok ems) =>
    (a2, Except.ok (normalize_output
      (ems ++ List.replicate (audio.length - nb * a.block_shift) 0)))

/-- `AEC::process_streaming` (lines 229-243): truncate both inputs to the
shorter length; empty means an immediate empty result. -/
def process_streaming (ext : AecExt) (a : AEC) (mic_input lpb_input : List ℚ) :
    AEC × Except String (List ℚ) :=
  let len_audio := min mic_input.length lpb_input.length
  if len_audio = 0 then (a, Except.ok [])
  else _process_internal ext a (mic_input.take len_audio) (lpb_input.take len_audio)

lemma processBlockCore_spec (ext : AecExt) (a1 : AEC) (el : ℕ) (hwf : a1.wf) :
    ((processBlockCore ext a1 el).1.wf ∧
      (processBlockCore ext a1 el).1.block_len = a1.block_len ∧
      (processBlockCore ext a1 el).1.block_shift = a1.block_shift) ∧
    (∀ em, (processBlockCore ext a1 el).2 = Except.ok em →
      em.length = min el a1.block_len) := by
  obtain ⟨hs0, hs1, hw1, hw2, hw3⟩ := hwf
  simp only [processBlockCore]
  split
  · exact ⟨⟨⟨hs0, hs1, hw1, hw2, hw3⟩, by trivial, by trivial⟩, fun em h => by simp at h⟩
  · rcases h1 : ext.run1 ((ext.fft a1.in_buffer.buffer).map ext.cnorm) a1.states_1
        ((ext.fft a1.in_buffer_lpb.buffer).map ext.cnorm) with e | r1 <;> simp only [h1]
    · exact ⟨⟨⟨hs0, hs1, hw1, hw2, hw3⟩, by trivial, by trivial⟩, fun em h => by simp at h⟩
    · split
      · exact ⟨⟨⟨hs0, hs1, hw1, hw2, hw3⟩, by trivial, by trivial⟩, fun em h => by simp at h⟩
      · split
        · exact ⟨⟨⟨hs0, hs1, hw1, hw2, hw3⟩, by trivial, by trivial⟩, fun em h => by simp at h⟩
        · rcases h2 : ext.run2
              ((ext.ifft (List.zipWith (fun c m => (c.1 * m, c.2 * m))
                (ext.fft a1.in_buffer.buffer) r1.1)).map
                  (fun x => x * (1 / (a1.block_len : ℚ))))
              a1.states_2 a1.in_buffer_lpb.buffer with e | r2 <;> simp only [h2]
          · exact ⟨⟨⟨hs0, hs1, hw1, hw2, hw3⟩, by trivial, by trivial⟩, fun em h => by simp at h⟩
          · split
            · exact ⟨⟨⟨hs0, hs1, hw1, hw2, hw3⟩, by trivial, by trivial⟩, fun em h => by simp at h⟩
            · rename_i hshape
              have hr2 : r2.1.length = a1.block_len := by
                by_contra hc
                exact hshape (Or.inl hc)
              have hob : (a1.out_buffer.shift_and_accumulate r2.1).wf
                  a1.block_len a1.block_shift :=
                CircularBuffer.shift_and_accumulate_wf _ _ _ _ hw3 hs1 (le_of_eq hr2)
              refine ⟨⟨⟨hs0, hs1, hw1, hw2, hob⟩, by trivial, by trivial⟩, fun em h => ?_⟩
              have hem : em = (a1.out_buffer.shift_and_accumulate r2.1).buffer.take el := by
                simpa using h.symm
              rw [hem, List.length_take, hob.2.2]

lemma processBlock_spec (ext : AecExt) (a : AEC) (mc lc : List ℚ) (el : ℕ)
    (hwf : a.wf) :
    ((processBlock ext a mc lc el).1.wf ∧
      (processBlock ext a mc lc el).1.block_len = a.block_len ∧
      (processBlock ext a mc lc el).1.block_shift = a.block_shift) ∧
    (∀ em, (processBlock ext a mc lc el).2 = Except.ok em →
      em.length = min el a.block_len) := by
  simp only [processBlock]
  split
  · rename_i hmc
    have hwf1 : ({ a with in_buffer := a.in_buffer.push_chunk mc, in_buffer_lpb := a.in_buffer_lpb.push_chunk lc } : AEC).wf := by
      obtain ⟨hs0, hs1, hw1, hw2, hw3⟩ := hwf
      exact ⟨hs0, hs1, CircularBuffer.push_chunk_wf _ _ _ _ hw1 hs1,
        CircularBuffer.push_chunk_wf _ _ _ _ hw2 hs1, hw3⟩
    have H := processBlockCore_spec ext _ el hwf1
    exact ⟨⟨H.1.1, H.1.2.1, H.1.2.2⟩, fun em h => H.2 em h⟩
  · have H := processBlockCore_spec ext a el hwf
    exact ⟨⟨H.1.1, H.1.2.1, H.1.2.2⟩, fun em h => H.2 em h⟩

lemma processLoop_spec (ext : AecExt) :
    ∀ (blocks : List (List ℚ × List ℚ × ℕ)) (a : AEC), a.wf →
      ((processLoop ext a blocks).1.wf ∧
        (processLoop ext a blocks).1.block_len = a.block_len ∧
        (processLoop ext a blocks).1.block_shift = a.block_shift) ∧
      (∀ ems, (processLoop ext a blocks).2 = Except.ok ems →
        (∀ b ∈ blocks, b.2.2 ≤ a.block_len) →
        ems.length = (blocks.map (fun b => b.2.2)).sum) := by
  intro blocks
  induction blocks with
  | nil =>
    intro a hwf
    refine ⟨⟨hwf, rfl, rfl⟩, fun ems h _ => ?_⟩
    simp only [processLoop] at h
    obtain rfl : ([] : List ℚ) = ems := by simpa using h
    simp
  | cons b rest ih =>
    intro a hwf
    obtain ⟨⟨hbwf, hbl, hbs⟩, hblen⟩ := processBlock_spec ext a b.1 b.2.1 b.2.2 hwf
    simp only [processLoop]
    rcases hpb : processBlock ext a b.1 b.2.1 b.2.2 with ⟨a2, e | em⟩ <;>
      simp only [hpb] at hbwf hbl hbs hblen ⊢
    · exact ⟨⟨hbwf, hbl, hbs⟩, fun ems h _ => by simp at h⟩
    · obtain ⟨⟨hrwf, hrbl, hrbs⟩, hrlen⟩ := ih a2 hbwf
      rcases hpl : processLoop ext a2 rest with ⟨a3, e2 | ems2⟩ <;>
        simp only [hpl] at hrwf hrbl hrbs hrlen ⊢
      · exact ⟨⟨hrwf, hrbl.trans hbl, hrbs.trans hbs⟩, fun ems h _ => by simp at h⟩
      · refine ⟨⟨hrwf, hrbl.trans hbl, hrbs.trans hbs⟩, fun ems h hle => ?_⟩
        obtain rfl : em ++ ems2 = ems := by simpa using h
        have h1 : em.length = min b.2.2 a.block_len := hblen em rfl
        have h2 : ems2.length = (rest.map (fun bb => bb.2.2)).sum := by
          refine hrlen ems2 rfl (fun bb hbb => ?_)
          rw [hbl]
          exact hle bb (List.mem_cons_of_mem _ hbb)
        have hminb : min b.2.2 a.block_len = b.2.2 :=
          min_eq_left (hle b (List.mem_cons_self _ _))
        simp [List.length_append, h1, h2, hminb]

lemma sum_emit_lengths (s L : ℕ) :
    ∀ nb, nb * s ≤ L →
      (((List.range nb).map (fun i => min s (L - i * s))).sum) = nb * s := by
  intro nb
  induction nb with
  | zero => simp
  | succ n ih =>
    intro h
    rw [List.range_succ, List.map_append, List.sum_append]
    have h1 : n * s ≤ L := by
      have : n * s ≤ (n + 1) * s := by nlinarith
      omega
    rw [ih h1]
    have h2 : min s (L - n * s) = s := by
      have : (n + 1) * s = n * s + s := by ring
      omega
    simp [h2]
    ring

lemma normalize_output_length (out : List ℚ) :
    (normalize_output out).length = out.length := by
  simp only [normalize_output]
  split <;> simp

lemma process_internal_len (ext : AecExt) (a : AEC) (audio lpb : List ℚ)
    (hwf : a.wf) :
    ∀ a2 out, _process_internal ext a audio lpb = (a2, Except.ok out) →
      out.length = audio.length := by
  intro a2 out h
  simp only [_process_internal] at h
  rcases hpl : processLoop ext a
      ((List.range (audio.length / a.block_shift)).map (fun i =>
        ((audio.drop (i * a.block_shift)).take a.block_shift,
          (lpb.drop (i * a.block_shift)).take a.block_shift,
          min a.block_shift (audio.length - i * a.block_shift)))) with ⟨a3, e | ems⟩ <;>
    simp only [hpl] at h
  · injection h with h1 h2
    simp at h2
  · injection h with h1 h2
    obtain rfl : normalize_output
        (ems ++ List.replicate (audio.length - audio.length / a.block_shift * a.block_shift) 0)
        = out := by simpa using h2
    have hdl : audio.length / a.block_shift * a.block_shift ≤ audio.length :=
      Nat.div_mul_le_self _ _
    have hems : ems.length = audio.length / a.block_shift * a.block_shift := by
      have H := ((processLoop_spec ext _ a hwf).2 ems (by rw [hpl]) ?_)
      · rw [H]
        have : ∀ bl : List (List ℚ × List ℚ × ℕ), True := fun _ => trivial
        rw [List.map_map]
        have heq : ((fun b : List ℚ × List ℚ × ℕ => b.2.2) ∘ (fun i =>
            ((audio.drop (i * a.block_shift)).take a.block_shift,
              (lpb.drop (i * a.block_shift)).take a.block_shift,
              min a.block_shift (audio.length - i * a.block_shift))))
            = fun i => min a.block_shift (audio.length - i * a.block_shift) := rfl
        rw [heq, sum_emit_lengths _ _ _ hdl]
      · intro b hb
        simp only [List.mem_map] at hb
        obtain ⟨i, _, rfl⟩ := hb
        exact le_trans (min_le_left _ _) hwf.2.1
    rw [normalize_output_length, List.length_append, List.length_replicate, hems]
    omega

/-- Amended **C7** theorem: for every behaviour of the external kernels and
every well-formed AEC state, a successful `process_streaming` returns a
buffer of length `min(|mic|,|far|)` — the length the two inputs are
truncated to — not the mic length. -/
theorem process_streaming_len (ext : AecExt) (a : AEC) (mic lpb : List ℚ)
    (hwf : a.wf) :
    ∀ a2 out, process_streaming ext a mic lpb = (a2, Except.ok out) →
      out.length = min mic.length lpb.length := by
  intro a2 out h
  simp only [process_streaming] at h
  by_cases hz : min mic.length lpb.length = 0
  · rw [if_pos hz] at h
    injection h with h1 h2
    obtain rfl : ([] : List ℚ) = out := by simpa using h2
    simp [hz]
  · rw [if_neg hz] at h
    have := process_internal_len ext a (mic.take (min mic.length lpb.length))
      (lpb.take (min mic.length lpb.length)) hwf a2 out h
    rw [this, List.length_take]
    omega

/-- Concrete external kernels used only to instantiate counterexamples. -/
def dummyAecExt : AecExt :=
  ⟨fun _ => [], fun _ => [], fun _ => 0, fun _ _ _ => Except.error "",
    fun _ _ _ => Except.error ""⟩

/-- **C7 counterexample.** `process_streaming` called with a one-sample mic
buffer and an empty far-end buffer succeeds with an *empty* output: the
result has the length of the shorter input, not the mic input — the far
reference is truncated against, not padded. -/
theorem process_streaming_not_mic_length :
    (process_streaming dummyAecExt AEC.new [0] []).2 = Except.ok ([] : List ℚ) ∧
    ([] : List ℚ).length ≠ [(0 : ℚ)].length := by
  exact ⟨rfl, by decide⟩

/-- `AEC::new` establishes the processing invariants. -/
lemma AEC_new_wf : AEC.new.wf := by
  refine ⟨?_, ?_, ⟨rfl, rfl, ?_⟩, ⟨rfl, rfl, ?_⟩, ⟨rfl, rfl, ?_⟩⟩
  · show (0 : ℕ) < 128
    norm_num
  · show (128 : ℕ) ≤ 512
    norm_num
  all_goals
    show (List.replicate 512 (0 : ℚ)).length = 512
    rw [List.length_replicate]

/-! ## Pipeline (`audio_toolkit/pipeline.rs`)

Fields not touched by the verified operations (amplitude smoothing,
throttling clocks, channel mode) are omitted; the buffers, the optional
VAD/AEC and the two preprocessors are kept. -/

structure Pipeline where
  vad : Option SileroVad
  aec : Option AEC
  mic_preprocessor : AudioPreprocessor
  spk_preprocessor : AudioPreprocessor
  accumulated_mic : List ℚ
  accumulated_spk : List ℚ
  vad_buffer : List ℚ
  speech_ended_flag : Bool

/-- `Pipeline::take_with_overlap` (lines 242-255): move both accumulated
buffers out; re-seed a buffer with its last `overlap_samples` samples only
when it held strictly more than that. -/
def Pipeline.take_with_overlap (pl : Pipeline) (overlap_samples : ℕ) :
    (List ℚ × List ℚ) × Pipeline :=
  let mic := pl.accumulated_mic
  let spk := pl.accumulated_spk
  let pl1 := { pl with accumulated_mic := ([] : List ℚ), accumulated_spk := ([] : List ℚ) }
  let pl2 := if mic.length > overlap_samples then { pl1 with accumulated_mic := mic.drop (mic.length - overlap_samples) } else pl1
  let pl3 := if spk.length > overlap_samples then { pl2 with accumulated_spk := spk.drop (spk.length - overlap_samples) } else pl2
  ((mic, spk), pl3)

/-- `Pipeline::apply_aec_to_accumulated` (lines 362-436): degenerate-buffer
early returns, AEC over the aligned prefix with splice-back of the cleaned
samples (error: keep the un-cancelled audio), then preprocessing of both
accumulated buffers. -/
def Pipeline.apply_aec_to_accumulated (fns : RealFns) (ext : AecExt)
    (pl : Pipeline) : Pipeline :=
  match pl.aec with
  | some aec =>
    if pl.accumulated_spk.length = 0 then
      let r := pl.mic_preprocessor.process fns pl.accumulated_mic
      { pl with mic_preprocessor := r.1, accumulated_mic := r.2 }
    else if pl.accumulated_mic.length = 0 then
      let r := pl.spk_preprocessor.process fns pl.accumulated_spk
      { pl with spk_preprocessor := r.1, accumulated_spk := r.2 }
    else
      let len := min pl.accumulated_mic.length pl.accumulated_spk.length
      let res := process_streaming ext aec (pl.accumulated_mic.take len)
        (pl.accumulated_spk.take len)
      let pl2 :=
        match res.2 with
        | Except.ok cleaned =>
          { pl with aec := some res.1, accumulated_mic := cleaned ++ pl.accumulated_mic.drop len }
        | Except.error _ => { pl with aec := some res.1 }
      let rm := pl2.mic_preprocessor.process fns pl2.accumulated_mic
      let rs := pl2.spk_preprocessor.process fns pl2.accumulated_spk
      { pl2 with mic_preprocessor := rm.1, accumulated_mic := rm.2, spk_preprocessor := rs.1, accumulated_spk := rs.2 }
  | none =>
    let rm := pl.mic_preprocessor.process fns pl.accumulated_mic
    let rs := pl.spk_preprocessor.process fns pl.accumulated_spk
    { pl with mic_preprocessor := rm.1, accumulated_mic := rm.2, spk_preprocessor := rs.1, accumulated_spk := rs.2 }

/-- **C8 (amended).** `take_with_overlap` returns the entire previous
contents of both buffers; afterwards a buffer holds its last `k` samples
when it previously held strictly more than `k` samples, and is left empty
otherwise. -/
theorem take_with_overlap_spec (pl : Pipeline) (k : ℕ) :
    (pl.take_with_overlap k).1 = (pl.accumulated_mic, pl.accumulated_spk) ∧
    (pl.take_with_overlap k).2.accumulated_mic =
      (if k < pl.accumulated_mic.length then
        pl.accumulated_mic.drop (pl.accumulated_mic.length - k) else []) ∧
    (pl.take_with_overlap k).2.accumulated_spk =
      (if k < pl.accumulated_spk.length then
        pl.accumulated_spk.drop (pl.accumulated_spk.length - k) else []) := by
  simp only [Pipeline.take_with_overlap]
  refine ⟨by trivial, ?_, ?_⟩ <;> split <;> split <;> simp_all

/-- An inert preprocessor value used to build concrete pipeline states. -/
def ppZero : AudioPreprocessor := ⟨⟨0, 0, 0, 0, 0, 0, 0, 0, 0⟩, 995 / 1000, 0, 1 / 10⟩

/-- A concrete pipeline whose mic buffer holds a single sample. -/
def plC8 : Pipeline := ⟨none, none, ppZero, ppZero, [1], [], [], false⟩

/-- **C8 counterexample.** With one accumulated mic sample and overlap 2,
`take_with_overlap` leaves the mic buffer empty, not equal to the last two
samples of its previous contents (which would be the whole buffer `[1]`). -/
theorem take_with_overlap_cex :
    plC8.accumulated_mic = [1] ∧
    (plC8.take_with_overlap 2).2.accumulated_mic = [] ∧
    (plC8.take_with_overlap 2).2.accumulated_mic ≠
      plC8.accumulated_mic.drop (plC8.accumulated_mic.length - 2) :=
  ⟨rfl, rfl, by decide⟩

/-- **C10.** `apply_aec_to_accumulated` never changes the length of either
accumulated buffer: whether the AEC is absent, succeeds (the cleaned
samples — exactly `min(len_mic, len_spk)` of them — are spliced over the
aligned prefix) or fails (the un-cancelled samples are kept), only sample
values change. -/
theorem apply_aec_preserves_lengths (fns : RealFns) (ext : AecExt)
    (pl : Pipeline) (hwf : ∀ a, pl.aec = some a → a.wf) :
    (pl.apply_aec_to_accumulated fns ext).accumulated_mic.length =
      pl.accumulated_mic.length ∧
    (pl.apply_aec_to_accumulated fns ext).accumulated_spk.length =
      pl.accumulated_spk.length := by
  simp only [Pipeline.apply_aec_to_accumulated]
  rcases ha : pl.aec with _ | a <;> simp only [ha]
  · exact ⟨AudioPreprocessor.process_length _ _ _, AudioPreprocessor.process_length _ _ _⟩
  · have hawf := hwf a ha
    split
    · exact ⟨AudioPreprocessor.process_length _ _ _, rfl⟩
    · split
      · exact ⟨rfl, AudioPreprocessor.process_length _ _ _⟩
      · rename_i hspk hmic
        rcases hres : process_streaming ext a
            (pl.accumulated_mic.take (min pl.accumulated_mic.length pl.accumulated_spk.length))
            (pl.accumulated_spk.take (min pl.accumulated_mic.length pl.accumulated_spk.length))
          with ⟨a2, e | cleaned⟩ <;> simp only [hres]
        · exact ⟨AudioPreprocessor.process_length _ _ _, AudioPreprocessor.process_length _ _ _⟩
        · have hclean : cleaned.length =
              min pl.accumulated_mic.length pl.accumulated_spk.length := by
            have := process_streaming_len ext a _ _ hawf a2 cleaned hres
            rw [this]
            simp only [List.length_take]
            omega
          constructor
          · rw [AudioPreprocessor.process_length]
            simp only [List.length_append, List.length_drop, hclean]
            omega
          · exact AudioPreprocessor.process_length _ _ _

/-- Concrete real-function kernels for witnesses. -/
def fnsZero : RealFns := ⟨fun _ => 0, fun _ => 0⟩

/-- Witness for `process_streaming_len` at a concrete state and input. -/
theorem process_streaming_len_witness :
    ([] : List ℚ).length = min [(0 : ℚ)].length ([] : List ℚ).length :=
  process_streaming_len dummyAecExt AEC.new [0] [] AEC_new_wf AEC.new [] rfl

/-- Witness for `apply_aec_preserves_lengths` at a concrete pipeline. -/
theorem apply_aec_preserves_lengths_witness :
    (plC8.apply_aec_to_accumulated fnsZero dummyAecExt).accumulated_mic.length =
      plC8.accumulated_mic.length :=
  (apply_aec_preserves_lengths fnsZero dummyAecExt plC8
    (fun a h => by rw [show plC8.aec = none from rfl] at h; cases h)).1

/-! ## Session store (`managers/session.rs`) and the session loop's
mic dedup gate (`actions.rs`).

`TranscriptSegment` keeps the fields the dedup logic reads; the row id and
wall-clock `created_at` are irrelevant to the claims and omitted. -/

structure TranscriptSegment where
  session_id : List Char
  text : List Char
  source : List Char
  start_ms : ℤ
  end_ms : ℤ
deriving DecidableEq, Repr

/-- Insertion step for `ORDER BY start_ms DESC` (ties resolved as SQLite
happens to; any stable order is a faithful model of the unspecified tie
order). -/
def insertDesc (s : TranscriptSegment) : List TranscriptSegment → List TranscriptSegment
  | [] => [s]
  | t :: ts => if t.start_ms ≤ s.start_ms then s :: t :: ts else t :: insertDesc s ts

def sortByStartDesc (l : List TranscriptSegment) : List TranscriptSegment :=
  l.foldr insertDesc []

/-- `SessionManager::get_recent_segments` (lines 441-473): segments of the
session and source with `end_ms ≥ since_ms`, by `start_ms` descending,
`LIMIT 25`. -/
def get_recent_segments (store : List TranscriptSegment) (sid source : List Char)
    (since_ms : ℤ) : List TranscriptSegment :=
  (sortByStartDesc (store.filter (fun s =>
    decide (s.session_id = sid) && decide (s.source = source) &&
      decide (since_ms ≤ s.end_ms)))).take 25

/-- The mic-segment write step of `run_session_transcription_loop`
(actions.rs lines 430-464): query the speaker segments of the last 5 s,
drop the mic segment when `is_duplicate_segment` (thresholds 0.80 / 300 ms)
holds for any of them, append it otherwise. Returns the new store and
whether the segment was written. -/
def micWriteStep (store : List TranscriptSegment) (sid text : List Char)
    (start_ms now_ms : ℤ) : List TranscriptSegment × Bool :=
  let recents := get_recent_segments store sid ("speaker".data) (start_ms - 5000)
  let is_dup := recents.any (fun seg =>
    is_duplicate_segment text start_ms now_ms seg.text seg.start_ms seg.end_ms
      (80 / 100) 300)
  if is_dup then (store, false)
  else (store ++ [⟨sid, text, "mic".data, start_ms, now_ms⟩], true)

lemma levDist_self (x : List Char) : levDist x x = 0 := by
  unfold levDist
  induction x with
  | nil => simp [levenshtein_nil_nil]
  | cons a x ih =>
    have hle : levenshtein Levenshtein.defaultCost (a :: x) (a :: x) ≤
        Levenshtein.defaultCost.substitute a a +
          levenshtein Levenshtein.defaultCost x x := by
      rw [levenshtein_cons_cons]
      exact le_trans (min_le_right _ _) (min_le_right _ _)
    have hsub : Levenshtein.defaultCost.substitute a a = 0 := by
      simp [Levenshtein.defaultCost]
    omega

lemma normalizedLevenshtein_self (x : List Char) : normalizedLevenshtein x x = 1 := by
  simp only [normalizedLevenshtein]
  split
  · rfl
  · rename_i hne
    rw [levDist_self]
    have hx : x ≠ [] := by
      intro hx
      exact hne (by simp [hx])
    have : (0 : ℚ) < (max x.length x.length : ℕ) := by
      have : 0 < x.length := List.length_pos.mpr hx
      exact_mod_cast by omega
    simp

lemma dup_eval : is_duplicate_segment ("hello world".data) 500 1500
    ("hello world".data) 0 1000 (80 / 100) 300 = true := by
  simp only [is_duplicate_segment]
  rw [if_neg (by decide)]
  rw [if_neg (by decide)]
  rw [normalizedLevenshtein_self]
  exact decide_eq_true (by norm_num)

/-- 25 speaker segments far in the future of the mic chunk (no time
overlap with it, but `end_ms` well above any `since_ms` filter). -/
def fillerSeg (i : ℕ) : TranscriptSegment :=
  ⟨"s".data, "x".data, "speaker".data, 100000 + (i : ℤ), 100001 + (i : ℤ)⟩

/-- An exact speaker duplicate of the mic segment below. -/
def dupSeg : TranscriptSegment := ⟨"s".data, "hello world".data, "speaker".data, 0, 1000⟩

def storeC1 : List TranscriptSegment := ((List.range 25).map fillerSeg) ++ [dupSeg]

/-- **C1 counterexample.** With 26 speaker segments whose `end_ms` pass the
5 s filter, the `LIMIT 25` of `get_recent_segments` drops the oldest one —
an exact duplicate of the mic segment — so the loop writes the mic segment
even though a speaker segment with ≥ 300 ms overlap and similarity ≥ 0.80
written within the window exists in the store. -/
theorem session_dedup_cex :
    (micWriteStep storeC1 ("s".data) ("hello world".data) 500 1500).2 = true ∧
    dupSeg ∈ storeC1 ∧ dupSeg.source = "speaker".data ∧
    (500 : ℤ) - 5000 ≤ dupSeg.end_ms ∧
    is_duplicate_segment ("hello world".data) 500 1500 dupSeg.text dupSeg.start_ms
      dupSeg.end_ms (80 / 100) 300 = true :=
  ⟨by decide, by decide, rfl, by decide, dup_eval⟩

/-- **C1 (amended).** Whenever the session loop writes a mic segment, no
segment *returned by the dedup query* — the at most 25 most recent (by
`start_ms`) speaker segments with `end_ms ≥ start_ms − 5000` — satisfies
`is_duplicate_segment` against it with thresholds 0.80 and 300 ms. The
invariant over the whole store fails because of the `LIMIT 25`. -/
theorem session_dedup_query_gate (store : List TranscriptSegment)
    (sid text : List Char) (start_ms now_ms : ℤ)
    (h : (micWriteStep store sid text start_ms now_ms).2 = true) :
    ∀ s ∈ get_recent_segments store sid ("speaker".data) (start_ms - 5000),
      is_duplicate_segment text start_ms now_ms s.text s.start_ms s.end_ms
        (80 / 100) 300 = false := by
  intro s hs
  simp only [micWriteStep] at h
  by_cases hd : (get_recent_segments store sid ("speaker".data) (start_ms - 5000)).any
      (fun seg => is_duplicate_segment text start_ms now_ms seg.text seg.start_ms
        seg.end_ms (80 / 100) 300) = true
  · rw [if_pos hd] at h
    simp at h
  · rw [List.any_eq_true] at hd
    rcases Bool.eq_false_or_eq_true (is_duplicate_segment text start_ms now_ms s.text
        s.start_ms s.end_ms (80 / 100) 300) with h0 | h1
    · exact absurd ⟨s, hs, h0⟩ hd
    · exact h1

/-- A speaker segment overlapping the mic segment below by only 200 ms. -/
def loneSeg : TranscriptSegment := ⟨"s".data, "bye".data, "speaker".data, 0, 700⟩

/-- Witness for `session_dedup_query_gate`: a store holding one speaker
segment in the query window whose overlap is under the 300 ms threshold;
the mic segment is written and the queried segment is not a duplicate. -/
theorem session_dedup_query_gate_witness :
    is_duplicate_segment ("hi there".data) 500 1500 loneSeg.text loneSeg.start_ms
      loneSeg.end_ms (80 / 100) 300 = false :=
  session_dedup_query_gate [loneSeg] ("s".data) ("hi there".data) 500 1500 (by decide)
    loneSeg (by decide)

/-! ## Text filter (`audio_toolkit/text.rs` lines 147-409)

The regex-based operations are embedded by their matching semantics on
`List Char`: `\b` is a boundary between a word character (`\w`, modelled
as ASCII alphanumeric or underscore) and a non-word character, `\s` is
whitespace, `(?i)` is modelled by `Char.toLower`. -/

/-- Regex `\w` (ASCII fragment). -/
def isWordChar (c : Char) : Bool := c.isAlphanum || c = '_'

/-- Case-insensitive literal matcher: consume `lit` (given lowercased)
from the head of `s`, returning the rest. -/
def eatLit : List Char → List Char → Option (List Char)
  | [], s => some s
  | _ :: _, [] => none
  | l :: ls, c :: cs => if c.toLower = l then eatLit ls cs else none

/-- One match attempt of `(?i)\bW\b[,.]?` at the head of the input (the
boundary before the match is the caller's responsibility). Returns the
rest of the input and whether the last consumed char is a word char. -/
def tryFiller (w : List Char) (s : List Char) : Option (List Char × Bool) :=
  match eatLit w s with
  | none => none
  | some r =>
    match r with
    | [] => some ([], true)
    | c :: cs =>
      if isWordChar c then none
      else if c = ',' ∨ c = '.' then some (cs, false)
      else some (r, true)

lemma dropWhile_len_le (p : Char → Bool) (l : List Char) :
    (l.dropWhile p).length ≤ l.length := by
  induction l with
  | nil => simp
  | cons c cs ih =>
    by_cases h : p c
    · rw [List.dropWhile_cons_of_pos h]; exact le_trans ih (by simp)
    · rw [List.dropWhile_cons_of_neg h]

lemma eatLit_length : ∀ (w s r : List Char), eatLit w s = some r →
    r.length + w.length = s.length := by
  intro w
  induction w with
  | nil => intro s r h; simp [eatLit] at h; simp [h.symm]
  | cons l ls ih =>
    intro s r h
    cases s with
    | nil => simp [eatLit] at h
    | cons c cs =>
      simp only [eatLit] at h
      split at h
      · have := ih cs r h
        simp [List.length_cons]
        omega
      · exact absurd h (by simp)

lemma tryFiller_length (c0 : Char) (wr s : List Char) (r : List Char × Bool)
    (h : tryFiller (c0 :: wr) s = some r) : r.1.length < s.length := by
  simp only [tryFiller] at h
  rcases he : eatLit (c0 :: wr) s with _ | rest
  · rw [he] at h; exact absurd h (by simp)
  · rw [he] at h
    have hlen := eatLit_length _ _ _ he
    have hpos : (c0 :: wr).length = wr.length + 1 := by simp
    cases rest with
    | nil =>
      obtain rfl : (([], true) : List Char × Bool) = r := by simpa using h
      simp only [List.length_nil] at hlen ⊢
      omega
    | cons c cs =>
      simp only at h
      split at h
      · exact absurd h (by simp)
      · split at h
        · obtain rfl : ((cs, false) : List Char × Bool) = r := by simpa using h
          simp only [List.length_cons] at hlen ⊢
          omega
        · obtain rfl : ((c :: cs, true) : List Char × Bool) = r := by simpa using h
          simp only [List.length_cons] at hlen ⊢
          omega

/-- `replace_all` of `(?i)\bW\b[,.]?` with the empty string, for the
nonempty pattern `c0 :: wr`: left-to-right scan tracking whether the
previous character is a word character (so `\b` holds exactly when it is
not); matched stretches are dropped from the output. -/
def removePat (c0 : Char) (wr : List Char) : Bool → List Char → List Char
  | _, [] => []
  | prevW, c :: cs =>
    if prevW then c :: removePat c0 wr (isWordChar c) cs
    else
      match ht : tryFiller (c0 :: wr) (c :: cs) with
      | some r => removePat c0 wr r.2 r.1
      | none => c :: removePat c0 wr (isWordChar c) cs
termination_by _ s => s.length
decreasing_by
  · simp only [List.length_cons]; omega
  · exact tryFiller_length c0 wr _ _ ht
  · simp only [List.length_cons]; omega

/-- The filler list of `text.rs` (lines 148-151). -/
def FILLER_WORDS : List (List Char) :=
  ["uh".data, "um".data, "uhm".data, "umm".data, "uhh".data, "uhhh".data,
   "ah".data, "eh".data, "hmm".data, "hm".data, "mmm".data, "mm".data,
   "mh".data, "ha".data, "ehh".data]

/-- The filler-removal passes of `filter_transcription_output`: one
`replace_all` per filler pattern, in order. -/
def fillersRemoved (s : List Char) : List Char :=
  FILLER_WORDS.foldl (fun acc w =>
    match w with
    | [] => acc
    | c0 :: wr => removePat c0 wr false acc) s

/-- Number of immediately following words equal to `wl` case-insensitively
(the inner `while` of `collapse_stutters`). -/
def countEq (wl : List Char) : List (List Char) → ℕ
  | [] => 0
  | v :: vs => if lowerStr v = wl then 1 + countEq wl vs else 0

lemma countEq_le (wl : List Char) : ∀ ws : List (List Char), countEq wl ws ≤ ws.length := by
  intro ws
  induction ws with
  | nil => simp [countEq]
  | cons v vs ih =>
    simp only [countEq]
    split <;> simp <;> omega

/-- The word loop of `collapse_stutters`: a run of three or more
consecutive case-equal short alphabetic words collapses to its first word. -/
def collapseAux : List (List Char) → List (List Char)
  | [] => []
  | w :: ws =>
    let wl := lowerStr w
    if byteLen wl ≤ 4 ∧ wl.all Char.isAlpha then
      let cnt := 1 + countEq wl ws
      if cnt ≥ 3 then w :: collapseAux (ws.drop (cnt - 1))
      else w :: collapseAux ws
    else w :: collapseAux ws
termination_by ws => ws.length
decreasing_by
  all_goals simp only [List.length_cons, List.length_drop]
  all_goals omega

/-- `collapse_stutters` (lines 314-350). -/
def collapse_stutters (text : List Char) : List Char :=
  let words := splitWs text
  if words.isEmpty then text else joinSp (collapseAux words)

/-- `MULTI_SPACE_PATTERN.replace_all`: each run of two or more whitespace
characters becomes a single space; single whitespace characters stay. -/
def collapseSpaces : List Char → List Char
  | [] => []
  | [c] => [c]
  | c :: d :: cs =>
    if wsp c then
      if wsp d then ' ' :: collapseSpaces ((d :: cs).dropWhile wsp)
      else c :: collapseSpaces (d :: cs)
    else c :: collapseSpaces (d :: cs)
termination_by s => s.length
decreasing_by
  all_goals simp only [List.length_cons]
  all_goals first
    | (have hdw := dropWhile_len_le wsp (d :: cs)
       simp only [List.length_cons] at hdw
       omega)
    | omega

/-! ### Hallucination patterns (`HALLUCINATION_PATTERNS`, lines 156-178) -/

/-- Consume one optional `[.!,]`. -/
def eatOneOptPunct (s : List Char) : List Char :=
  match s with
  | [] => []
  | c :: cs => if c = '.' ∨ c = '!' ∨ c = ',' then cs else s

/-- `thank\s*you`. -/
def eatThankWsYou (s : List Char) : Option (List Char) :=
  match eatLit ("thank".data) s with
  | none => none
  | some r => eatLit ("you".data) (r.dropWhile wsp)

/-- One repetition unit `thank\s*you[.!,]?\s*`. -/
def thankYouUnit (s : List Char) : Option (List Char) :=
  match eatThankWsYou s with
  | none => none
  | some r => some ((eatOneOptPunct r).dropWhile wsp)

/-- `hello[.!,]?\s*` / `okay[.!,]?\s*`. -/
def litPunctWsUnit (lit : List Char) (s : List Char) : Option (List Char) :=
  match eatLit lit s with
  | none => none
  | some r => some ((eatOneOptPunct r).dropWhile wsp)

/-- Count how many repetitions of `u` consume the whole string; `none`
when the string is not exactly a sequence of units. Fuel-bounded (each
unit consumes at least one character on the inputs used). -/
def repFull (u : List Char → Option (List Char)) : ℕ → List Char → Option ℕ
  | _, [] => some 0
  | 0, _ :: _ => none
  | fuel + 1, c :: cs =>
    match u (c :: cs) with
    | none => none
    | some r =>
      if r.length < (c :: cs).length then (repFull u fuel r).map (· + 1)
      else none

/-- Whole-string match of `alt[.!,]?` for a literal alternative. -/
def wholeLitPunct (lit : List Char) (t : List Char) : Bool :=
  match eatLit lit t with
  | none => false
  | some r => decide (eatOneOptPunct r = [])

/-- Pattern 1: `^[.!?…,;:'"]+$`. -/
def patPunctOnly (t : List Char) : Bool :=
  !t.isEmpty && t.all (fun c => c ∈ ['.', '!', '?', '…', ',', ';', ':', '\'', '"'])

/-- Pattern 2: `(?i)^(thank\s*you[.!,]?\s*)+$`. -/
def patThankYouSpam (t : List Char) : Bool :=
  ((repFull thankYouUnit (t.length + 1) t).map (fun n => decide (1 ≤ n))).getD false

/-- Pattern 3: `(?i)^(hello[.!,]?\s*){2,}$`. -/
def patHelloRep (t : List Char) : Bool :=
  ((repFull (litPunctWsUnit ("hello".data)) (t.length + 1) t).map
    (fun n => decide (2 ≤ n))).getD false

/-- Pattern 4: `(?i)^(okay[.!,]?\s*){3,}$`. -/
def patOkayRep (t : List Char) : Bool :=
  ((repFull (litPunctWsUnit ("okay".data)) (t.length + 1) t).map
    (fun n => decide (3 ≤ n))).getD false

/-- Pattern 5: `(?i)^\[.*\]$` (`.` does not match a newline). -/
def patBracketed (t : List Char) : Bool :=
  decide (2 ≤ t.length) && decide (t.head? = some '[') &&
    decide (t.getLast? = some ']') && t.all (fun c => c ≠ '\n')

/-- Pattern 6: `(?i)^(subtitles|captions|transcribed|translated)\s*(by|:)`. -/
def patSubtitle (t : List Char) : Bool :=
  [("subtitles".data), ("captions".data), ("transcribed".data), ("translated".data)].any
    (fun w =>
      match eatLit w t with
      | none => false
      | some r =>
        (eatLit ("by".data) (r.dropWhile wsp)).isSome ||
          (eatLit (":".data) (r.dropWhile wsp)).isSome)

/-- Pattern 7: `(?i)^(www\.|https?://|\.com|\.org)`. -/
def patUrl (t : List Char) : Bool :=
  [("www.".data), ("http://".data), ("https://".data), (".com".data), (".org".data)].any
    (fun w => (eatLit w t).isSome)

/-- Pattern 8: single thank-you and multilingual equivalents. -/
def patSingleThanks (t : List Char) : Bool :=
  (match eatThankWsYou t with
   | none => false
   | some r => decide (eatOneOptPunct r = [])) ||
  [("thanks".data), ("gracias".data), ("merci".data), ("danke".data),
   ("grazie".data), ("obrigado".data), ("obrigada".data), ("спасибо".data),
   ("ありがとう".data), ("謝謝".data), ("감사합니다".data)].any
    (fun w => wholeLitPunct w t)

/-- Pattern 9: goodbye variants. -/
def patGoodbye (t : List Char) : Bool :=
  [("bye".data), ("goodbye".data), ("bye-bye".data), ("adios".data),
   ("ciao".data), ("au revoir".data)].any (fun w => wholeLitPunct w t)

/-- Pattern 10: common single-word acknowledgements. -/
def patAck (t : List Char) : Bool :=
  [("yes".data), ("no".data), ("yeah".data), ("yep".data), ("nope".data),
   ("hmm".data), ("huh".data), ("oh".data), ("ah".data)].any
    (fun w => wholeLitPunct w t)

def hallucinationPatterns (t : List Char) : Bool :=
  patPunctOnly t || patThankYouSpam t || patHelloRep t || patOkayRep t ||
    patBracketed t || patSubtitle t || patUrl t || patSingleThanks t ||
    patGoodbye t || patAck t

/-- The inner `while` of `is_repetitive_hallucination`: additional
consecutive occurrences of `phrase` starting at index `j`. -/
def consecFrom (ws : List (List Char)) (plen : ℕ) (phrase : List (List Char)) :
    ℕ → ℕ → ℕ
  | _, 0 => 0
  | j, fuel + 1 =>
    if j + plen ≤ ws.length ∧ ((ws.drop j).take plen).map lowerStr = phrase
    then 1 + consecFrom ws plen phrase (j + plen) fuel
    else 0

/-- The outer `while` of `is_repetitive_hallucination`, accumulating
`repetition_count`; `i` jumps past each counted group. -/
def repScan (ws : List (List Char)) (plen : ℕ) : ℕ → ℕ → ℕ
  | _, 0 => 0
  | i, fuel + 1 =>
    if i + plen ≤ ws.length then
      let phrase := ((ws.drop i).take plen).map lowerStr
      let consecutive := 1 + consecFrom ws plen phrase (i + plen) fuel
      (if consecutive ≥ 3 then consecutive else 0) +
        repScan ws plen (i + plen * consecutive) fuel
    else 0

/-- `is_repetitive_hallucination` (lines 181-228). -/
def is_repetitive_hallucination (t : List Char) : Bool :=
  let ws := splitWs t
  if ws.length < 6 then false
  else
    [2, 3, 4].any (fun plen =>
      if ws.length < plen * 3 then false
      else decide (repScan ws plen 0 (ws.length + 1) * plen ≥ ws.length / 2))

/-- `is_hallucination` (lines 231-259). -/
def is_hallucination (text : List Char) : Bool :=
  let trimmed := trimStr text
  if byteLen trimmed < 2 then true
  else if !trimmed.contains ' ' && decide (byteLen trimmed < 3) then true
  else if hallucinationPatterns trimmed then true
  else if is_repetitive_hallucination trimmed then true
  else false

/-- `filter_transcription_output` (lines 376-409): hallucination gate,
filler removal, stutter collapse, whitespace normalisation, length gate,
final hallucination check. -/
def filter_transcription_output (text : List Char) : List Char :=
  if is_hallucination text then []
  else
    let f1 := fillersRemoved text
    let f2 := collapse_stutters f1
    let f3 := collapseSpaces f2
    let trimmed := trimStr f3
    if byteLen trimmed < 2 then []
    else if is_hallucination trimmed then []
    else trimmed


/-! ### Character-level facts -/

lemma wsp_not_word (c : Char) (h : wsp c = true) : isWordChar c = false := by
  simp only [wsp, Char.isWhitespace, Bool.or_eq_true, decide_eq_true_iff] at h
  rcases h with ((rfl | rfl) | rfl) | rfl <;> decide

lemma word_of_toLower (c l : Char) (hl : isWordChar l = true) (h : Char.toLower c = l) :
    isWordChar c = true := by
  by_cases hc : c.toNat ≥ 65 ∧ c.toNat ≤ 90
  · have hup : c.isUpper = true := by
      simp only [Char.isUpper, Bool.and_eq_true, decide_eq_true_iff]
      exact ⟨hc.1, hc.2⟩
    simp [isWordChar, Char.isAlphanum, Char.isAlpha, hup]
  · simp only [Char.toLower] at h
    rw [if_neg hc] at h
    subst h
    exact hl

/-! ### Token structure of split_whitespace -/

lemma splitWsAux_tokens : ∀ (s acc : List Char), (∀ c ∈ acc, wsp c = false) →
    ∀ w ∈ splitWsAux s acc, w ≠ [] ∧ ∀ c ∈ w, wsp c = false := by
  intro s
  induction s with
  | nil =>
    intro acc hacc w hw
    cases acc with
    | nil => simp [splitWsAux] at hw
    | cons a as =>
      simp only [splitWsAux, List.isEmpty_cons, Bool.false_eq_true, if_false,
        List.mem_singleton] at hw
      subst hw
      refine ⟨by simp, ?_⟩
      intro c hc
      exact hacc c (List.mem_reverse.mp hc)
  | cons c cs ih =>
    intro acc hacc w hw
    by_cases hcw : wsp c = true
    · rw [show splitWsAux (c :: cs) acc =
          (if acc.isEmpty then splitWsAux cs [] else acc.reverse :: splitWsAux cs []) from by
        simp [splitWsAux, hcw]] at hw
      cases acc with
      | nil =>
        simp only [List.isEmpty_nil, if_true] at hw
        exact ih [] (by simp) w hw
      | cons a as =>
        simp only [List.isEmpty_cons, Bool.false_eq_true, if_false, List.mem_cons] at hw
        rcases hw with rfl | hw2
        · refine ⟨by simp, ?_⟩
          intro d hd
          exact hacc d (List.mem_reverse.mp hd)
        · exact ih [] (by simp) w hw2
    · have hcf : wsp c = false := by simpa using hcw
      rw [show splitWsAux (c :: cs) acc = splitWsAux cs (c :: acc) from by
        simp [splitWsAux, hcf]] at hw
      refine ih (c :: acc) ?_ w hw
      intro d hd
      rcases List.mem_cons.mp hd with rfl | hd2
      · exact hcf
      · exact hacc d hd2

lemma splitWs_tokens (s : List Char) : ∀ w ∈ splitWs s, w ≠ [] ∧ ∀ c ∈ w, wsp c = false :=
  splitWsAux_tokens s [] (by simp)

lemma splitWsAux_ne_nil_acc : ∀ (s acc : List Char), acc ≠ [] →
    splitWsAux s acc = (acc.reverse ++ s.takeWhile (fun d => !wsp d)) ::
      splitWs (s.dropWhile (fun d => !wsp d)) := by
  intro s
  induction s with
  | nil =>
    intro acc hacc
    cases acc with
    | nil => exact absurd rfl hacc
    | cons a as => simp [splitWsAux, splitWs]
  | cons c cs ih =>
    intro acc hacc
    by_cases hcw : wsp c = true
    · cases acc with
      | nil => exact absurd rfl hacc
      | cons a as =>
        have ht : (c :: cs).takeWhile (fun d => !wsp d) = [] := by
          simp [List.takeWhile_cons, hcw]
        have hd : (c :: cs).dropWhile (fun d => !wsp d) = c :: cs := by
          simp [List.dropWhile_cons, hcw]
        rw [ht, hd]
        rw [show splitWsAux (c :: cs) (a :: as) = (a :: as).reverse :: splitWsAux cs [] from by
          simp [splitWsAux, hcw]]
        rw [show splitWs (c :: cs) = splitWsAux cs [] from by simp [splitWs, splitWsAux, hcw]]
        simp
    · have hcf : wsp c = false := by simpa using hcw
      rw [show splitWsAux (c :: cs) acc = splitWsAux cs (c :: acc) from by
        simp [splitWsAux, hcf]]
      rw [ih (c :: acc) (by simp)]
      have ht : (c :: cs).takeWhile (fun d => !wsp d) = c :: cs.takeWhile (fun d => !wsp d) := by
        simp [List.takeWhile_cons, hcf]
      have hd : (c :: cs).dropWhile (fun d => !wsp d) = cs.dropWhile (fun d => !wsp d) := by
        simp [List.dropWhile_cons, hcf]
      rw [ht, hd]
      simp

lemma splitWs_cons_of_wsp (c : Char) (cs : List Char) (h : wsp c = true) :
    splitWs (c :: cs) = splitWs cs := by
  simp [splitWs, splitWsAux, h]

lemma splitWs_cons_of_not_wsp (c : Char) (cs : List Char) (h : wsp c = false) :
    splitWs (c :: cs) = (c :: cs.takeWhile (fun d => !wsp d)) ::
      splitWs (cs.dropWhile (fun d => !wsp d)) := by
  rw [show splitWs (c :: cs) = splitWsAux cs [c] from by simp [splitWs, splitWsAux, h]]
  rw [splitWsAux_ne_nil_acc cs [c] (by simp)]
  simp

lemma splitWs_nil_all_wsp : ∀ (s : List Char), splitWs s = [] → ∀ c ∈ s, wsp c = true := by
  intro s
  induction s with
  | nil => simp
  | cons c cs ih =>
    intro h d hd
    by_cases hc : wsp c = true
    · rw [splitWs_cons_of_wsp c cs hc] at h
      rcases List.mem_cons.mp hd with rfl | hd2
      · exact hc
      · exact ih h d hd2
    · have hcf : wsp c = false := by simpa using hc
      rw [splitWs_cons_of_not_wsp c cs hcf] at h
      simp at h

/-! ### Structure of joined token lists -/

lemma joinSp_nil : joinSp [] = [] := rfl

lemma joinSp_single (w : List Char) : joinSp [w] = w := by
  simp [joinSp, List.intercalate]

lemma joinSp_cons (w v : List Char) (ws : List (List Char)) :
    joinSp (w :: v :: ws) = w ++ ' ' :: joinSp (v :: ws) := by
  simp [joinSp, List.intercalate]

lemma joinSp_ne_nil (w : List Char) (ws : List (List Char)) (hw : w ≠ []) :
    joinSp (w :: ws) ≠ [] := by
  cases ws with
  | nil => rw [joinSp_single]; exact hw
  | cons v vs =>
    rw [joinSp_cons]
    cases w with
    | nil => exact absurd rfl hw
    | cons a as => simp

lemma joinSp_head (w : List Char) (ws : List (List Char)) (hw : w ≠ []) :
    (joinSp (w :: ws)).head? = w.head? := by
  cases ws with
  | nil => rw [joinSp_single]
  | cons v vs =>
    rw [joinSp_cons]
    cases w with
    | nil => exact absurd rfl hw
    | cons a as => rfl

lemma mem_of_getLast?_talky {l : List Char} {c : Char} (h : l.getLast? = some c) : c ∈ l := by
  induction l with
  | nil => simp at h
  | cons a as ih =>
    cases as with
    | nil =>
      simp only [List.getLast?_singleton, Option.some.injEq] at h
      simp [h]
    | cons b bs =>
      rw [List.getLast?_cons_cons] at h
      exact List.mem_cons_of_mem a (ih h)

lemma joinSp_getLast : ∀ (ws : List (List Char)), (∀ w ∈ ws, w ≠ []) →
    ∀ c, (joinSp ws).getLast? = some c → ∃ w ∈ ws, c ∈ w := by
  intro ws
  induction ws with
  | nil => intro _ c h; simp [joinSp_nil] at h
  | cons w vs ih =>
    intro hne c h
    cases vs with
    | nil =>
      rw [joinSp_single] at h
      exact ⟨w, by simp, mem_of_getLast?_talky h⟩
    | cons v vs2 =>
      rw [joinSp_cons] at h
      rw [List.getLast?_append] at h
      cases hJ : joinSp (v :: vs2) with
      | nil => exact absurd hJ (joinSp_ne_nil v vs2 (hne v (by simp)))
      | cons j js =>
        rw [hJ, List.getLast?_cons_cons] at h
        have hsome : ((j :: js).getLast?).isSome := by
          rw [List.getLast?_isSome]
          simp
        obtain ⟨d, hd⟩ := Option.isSome_iff_exists.mp hsome
        rw [hd] at h
        simp only [Option.or_some, Option.some.injEq] at h
        subst h
        have := ih (fun u hu => hne u (by simp [hu])) d (by rw [hJ]; exact hd)
        rcases this with ⟨u, hu, hcu⟩
        exact ⟨u, by simp [hu], hcu⟩

/-! ### The trim and multi-space passes fix a single-spaced join -/

lemma dropWhile_head_false (p : Char → Bool) (s : List Char)
    (h : ∀ c, s.head? = some c → p c = false) : s.dropWhile p = s := by
  cases s with
  | nil => rfl
  | cons a as => rw [List.dropWhile_cons_of_neg (by simp [h a rfl])]

lemma dropWhile_nil_of_all (p : Char → Bool) : ∀ s : List Char,
    (∀ c ∈ s, p c = true) → s.dropWhile p = [] := by
  intro s
  induction s with
  | nil => intro _; rfl
  | cons a as ih =>
    intro h
    rw [List.dropWhile_cons_of_pos (h a (by simp))]
    exact ih (fun c hc => h c (by simp [hc]))

lemma takeWhile_all (p : Char → Bool) : ∀ s : List Char,
    (∀ c ∈ s, p c = true) → s.takeWhile p = s := by
  intro s
  induction s with
  | nil => intro _; rfl
  | cons a as ih =>
    intro h
    rw [List.takeWhile_cons_of_pos (h a (by simp))]
    rw [ih (fun c hc => h c (by simp [hc]))]

lemma trimStr_eq_self (s : List Char)
    (h1 : ∀ c, s.head? = some c → wsp c = false)
    (h2 : ∀ c, s.getLast? = some c → wsp c = false) : trimStr s = s := by
  unfold trimStr
  rw [dropWhile_head_false wsp s h1]
  rw [dropWhile_head_false wsp s.reverse
    (fun c hc => h2 c (by rwa [List.head?_reverse] at hc))]
  exact List.reverse_reverse s

lemma trimStr_nil_of_all_wsp (s : List Char) (h : ∀ c ∈ s, wsp c = true) : trimStr s = [] := by
  unfold trimStr
  rw [dropWhile_nil_of_all wsp s h]
  rfl

/-- Adjacent characters are never both whitespace. -/
def NoWsPair (c d : Char) : Prop := ¬(wsp c = true ∧ wsp d = true)

lemma chain'_of_all {P : Char → Char → Prop} : ∀ (l : List Char),
    (∀ a ∈ l, ∀ b, P a b) → List.Chain' P l := by
  intro l
  induction l with
  | nil => intro _; exact List.chain'_nil
  | cons a as ih =>
    intro h
    rw [List.chain'_cons']
    exact ⟨fun b _ => h a (by simp) b, ih (fun c hc b => h c (by simp [hc]) b)⟩

lemma collapseSpaces_eq_self : ∀ (s : List Char), List.Chain' NoWsPair s →
    collapseSpaces s = s := by
  intro s
  induction s with
  | nil => intro _; simp [collapseSpaces]
  | cons c cs ih =>
    intro h
    cases cs with
    | nil => simp [collapseSpaces]
    | cons d cs2 =>
      have hpair : NoWsPair c d := (List.chain'_cons.mp h).1
      have htail := (List.chain'_cons.mp h).2
      by_cases hc : wsp c = true
      · have hd : wsp d = false := by
          rcases Bool.eq_false_or_eq_true (wsp d) with h1 | h1
          · exact absurd ⟨hc, h1⟩ hpair
          · exact h1
        rw [show collapseSpaces (c :: d :: cs2) = c :: collapseSpaces (d :: cs2) from by
          simp [collapseSpaces, hc, hd]]
        rw [ih htail]
      · have hcf : wsp c = false := by simpa using hc
        rw [show collapseSpaces (c :: d :: cs2) = c :: collapseSpaces (d :: cs2) from by
          simp [collapseSpaces, hcf]]
        rw [ih htail]

lemma joinSp_chain : ∀ (ws : List (List Char)),
    (∀ w ∈ ws, w ≠ [] ∧ ∀ c ∈ w, wsp c = false) →
    List.Chain' NoWsPair (joinSp ws) := by
  intro ws
  induction ws with
  | nil => intro _; simp [joinSp_nil]
  | cons w vs ih =>
    intro h
    cases vs with
    | nil =>
      rw [joinSp_single]
      refine chain'_of_all w ?_
      intro a ha b hab
      rw [(h w (by simp)).2 a ha] at hab
      exact absurd hab.1 (by simp)
    | cons v vs2 =>
      rw [joinSp_cons]
      rw [List.chain'_append]
      refine ⟨?_, ?_, ?_⟩
      · refine chain'_of_all w ?_
        intro a ha b hab
        rw [(h w (by simp)).2 a ha] at hab
        exact absurd hab.1 (by simp)
      · rw [List.chain'_cons']
        constructor
        · intro b hb
          rw [joinSp_head v vs2 (h v (by simp)).1] at hb
          have hbv : b ∈ v := List.mem_of_mem_head? hb
          intro hab
          rw [(h v (by simp)).2 b hbv] at hab
          exact absurd hab.2 (by simp)
        · exact ih (fun u hu => h u (by simp [hu]))
      · intro x hx y _ hab
        have hxw : x ∈ w := mem_of_getLast?_talky (Option.mem_def.mp hx)
        rw [(h w (by simp)).2 x hxw] at hab
        exact absurd hab.1 (by simp)

/-! ### Roundtrip: splitting a single-spaced join recovers the tokens -/

lemma splitWsAux_append_word : ∀ (w : List Char), (∀ c ∈ w, wsp c = false) →
    ∀ (s acc : List Char), splitWsAux (w ++ s) acc = splitWsAux s (w.reverse ++ acc) := by
  intro w
  induction w with
  | nil => intro _ s acc; simp
  | cons a as ih =>
    intro h s acc
    have ha : wsp a = false := h a (by simp)
    rw [show (a :: as) ++ s = a :: (as ++ s) from rfl]
    rw [show splitWsAux (a :: (as ++ s)) acc = splitWsAux (as ++ s) (a :: acc) from by
      simp [splitWsAux, ha]]
    rw [ih (fun c hc => h c (by simp [hc])) s (a :: acc)]
    simp

lemma splitWs_joinSp : ∀ (ws : List (List Char)),
    (∀ w ∈ ws, w ≠ [] ∧ ∀ c ∈ w, wsp c = false) → splitWs (joinSp ws) = ws := by
  intro ws
  induction ws with
  | nil => intro _; simp [joinSp_nil, splitWs, splitWsAux]
  | cons w vs ih =>
    intro h
    cases vs with
    | nil =>
      rw [joinSp_single]
      have haux := splitWsAux_append_word w (h w (by simp)).2 [] []
      rw [List.append_nil] at haux
      rw [splitWs, haux]
      cases hwr : w.reverse with
      | nil => exact absurd (List.reverse_eq_nil_iff.mp hwr) (h w (by simp)).1
      | cons a as =>
        rw [List.append_nil]
        rw [show splitWsAux [] (a :: as) = [(a :: as).reverse] from by simp [splitWsAux]]
        rw [← hwr, List.reverse_reverse]
    | cons v vs2 =>
      rw [joinSp_cons]
      rw [splitWs]
      rw [splitWsAux_append_word w (h w (by simp)).2 (' ' :: joinSp (v :: vs2)) []]
      cases hwr : w.reverse with
      | nil => exact absurd (List.reverse_eq_nil_iff.mp hwr) (h w (by simp)).1
      | cons a as =>
        rw [List.append_nil]
        rw [show splitWsAux (' ' :: joinSp (v :: vs2)) (a :: as) =
              (a :: as).reverse :: splitWsAux (joinSp (v :: vs2)) [] from by
          simp [splitWsAux, show wsp ' ' = true from by decide]]
        rw [← hwr, List.reverse_reverse]
        rw [show splitWsAux (joinSp (v :: vs2)) [] = splitWs (joinSp (v :: vs2)) from rfl]
        rw [ih (fun u hu => h u (by simp [hu]))]

/-! ### Maximal word-character runs -/

/-- All maximal runs of `\w` characters of a string. The flag records
whether the previous character was a word character: when it is true the
run in progress was opened earlier and is not reported again. -/
def runsFrom : Bool → List Char → List (List Char)
  | _, [] => []
  | true, c :: cs => runsFrom (isWordChar c) cs
  | false, c :: cs =>
    if isWordChar c then
      (c :: cs.takeWhile isWordChar) :: runsFrom false (cs.dropWhile isWordChar)
    else runsFrom false cs
termination_by _ s => s.length
decreasing_by
  all_goals simp only [List.length_cons]
  all_goals first
    | (have hdw := dropWhile_len_le isWordChar cs
       omega)
    | omega

lemma runsFrom_nil (b : Bool) : runsFrom b [] = [] := by simp [runsFrom]

lemma runsFrom_true_cons (c : Char) (cs : List Char) :
    runsFrom true (c :: cs) = runsFrom (isWordChar c) cs := by
  simp [runsFrom]

lemma runsFrom_false_word (c : Char) (cs : List Char) (h : isWordChar c = true) :
    runsFrom false (c :: cs) =
      (c :: cs.takeWhile isWordChar) :: runsFrom false (cs.dropWhile isWordChar) := by
  simp [runsFrom, h]

lemma runsFrom_false_nonword (c : Char) (cs : List Char) (h : isWordChar c = false) :
    runsFrom false (c :: cs) = runsFrom false cs := by
  simp [runsFrom, h]

lemma runsFrom_true_eq : ∀ (s : List Char),
    runsFrom true s = runsFrom false (s.dropWhile isWordChar) := by
  intro s
  induction s with
  | nil => simp [runsFrom_nil]
  | cons c cs ih =>
    rw [runsFrom_true_cons]
    by_cases h : isWordChar c = true
    · rw [h, ih, List.dropWhile_cons_of_pos h]
    · have hf : isWordChar c = false := by simpa using h
      rw [hf, List.dropWhile_cons_of_neg (by simp [hf]), runsFrom_false_nonword c cs hf]

lemma takeWhile_append_stop (p : Char → Bool) : ∀ (xs ys : List Char),
    (∀ d, ys.head? = some d → p d = false) →
    (xs ++ ys).takeWhile p = xs.takeWhile p ∧
      (xs ++ ys).dropWhile p = xs.dropWhile p ++ ys := by
  intro xs
  induction xs with
  | nil =>
    intro ys h
    constructor
    · cases ys with
      | nil => rfl
      | cons d ds => simp [List.takeWhile_cons, h d rfl]
    · cases ys with
      | nil => rfl
      | cons d ds => simp [List.dropWhile_cons, h d rfl]
  | cons x xs2 ih =>
    intro ys h
    by_cases hx : p x = true
    · obtain ⟨h1, h2⟩ := ih ys h
      constructor
      · rw [show (x :: xs2) ++ ys = x :: (xs2 ++ ys) from rfl]
        rw [List.takeWhile_cons_of_pos hx, List.takeWhile_cons_of_pos hx, h1]
      · rw [show (x :: xs2) ++ ys = x :: (xs2 ++ ys) from rfl]
        rw [List.dropWhile_cons_of_pos hx, List.dropWhile_cons_of_pos hx, h2]
    · constructor
      · rw [show (x :: xs2) ++ ys = x :: (xs2 ++ ys) from rfl]
        rw [List.takeWhile_cons_of_neg hx, List.takeWhile_cons_of_neg hx]
      · rw [show (x :: xs2) ++ ys = x :: (xs2 ++ ys) from rfl]
        rw [List.dropWhile_cons_of_neg hx, List.dropWhile_cons_of_neg hx]
        rfl

lemma head_dropWhile (p : Char → Bool) : ∀ (l : List Char) (d : Char),
    (l.dropWhile p).head? = some d → p d = false := by
  intro l
  induction l with
  | nil => intro d h; simp at h
  | cons a as ih =>
    intro d h
    by_cases ha : p a = true
    · rw [List.dropWhile_cons_of_pos ha] at h
      exact ih d h
    · rw [List.dropWhile_cons_of_neg ha] at h
      simp only [List.head?_cons, Option.some.injEq] at h
      subst h
      simpa using ha

lemma mem_takeWhile (p : Char → Bool) : ∀ (l : List Char) (a : Char),
    a ∈ l.takeWhile p → p a = true := by
  intro l
  induction l with
  | nil => intro a h; simp at h
  | cons x xs ih =>
    intro a h
    by_cases hx : p x = true
    · rw [List.takeWhile_cons_of_pos hx] at h
      rcases List.mem_cons.mp h with rfl | h2
      · exact hx
      · exact ih a h2
    · rw [List.takeWhile_cons_of_neg hx] at h
      simp at h

lemma runsFrom_append : ∀ (n : ℕ) (xs ys : List Char), xs.length ≤ n →
    (∀ d, ys.head? = some d → isWordChar d = false) →
    runsFrom false (xs ++ ys) = runsFrom false xs ++ runsFrom false ys := by
  intro n
  induction n with
  | zero =>
    intro xs ys hlen h
    have hx : xs = [] := List.length_eq_zero.mp (Nat.le_zero.mp hlen)
    subst hx
    simp [runsFrom_nil]
  | succ n ih =>
    intro xs ys hlen h
    cases xs with
    | nil => simp [runsFrom_nil]
    | cons c cs =>
      by_cases hc : isWordChar c = true
      · rw [show (c :: cs) ++ ys = c :: (cs ++ ys) from rfl]
        rw [runsFrom_false_word c (cs ++ ys) hc, runsFrom_false_word c cs hc]
        obtain ⟨ht, hd⟩ := takeWhile_append_stop isWordChar cs ys h
        rw [ht, hd]
        rw [ih (cs.dropWhile isWordChar) ys (by
          have := dropWhile_len_le isWordChar cs
          simp only [List.length_cons] at hlen
          omega) h]
        simp
      · have hcf : isWordChar c = false := by simpa using hc
        rw [show (c :: cs) ++ ys = c :: (cs ++ ys) from rfl]
        rw [runsFrom_false_nonword c (cs ++ ys) hcf, runsFrom_false_nonword c cs hcf]
        exact ih cs ys (by simp only [List.length_cons] at hlen; omega) h

lemma runsFrom_append_of_stop (xs ys : List Char)
    (h : ∀ d, ys.head? = some d → isWordChar d = false) :
    runsFrom false (xs ++ ys) = runsFrom false xs ++ runsFrom false ys :=
  runsFrom_append xs.length xs ys le_rfl h

lemma runsFrom_all_word (R : List Char) (hne : R ≠ [])
    (hw : ∀ c ∈ R, isWordChar c = true) : runsFrom false R = [R] := by
  cases R with
  | nil => exact absurd rfl hne
  | cons c cs =>
    rw [runsFrom_false_word c cs (hw c (by simp))]
    rw [takeWhile_all isWordChar cs (fun d hd => hw d (by simp [hd]))]
    rw [dropWhile_nil_of_all isWordChar cs (fun d hd => hw d (by simp [hd]))]
    simp [runsFrom_nil]

lemma runsFrom_run_cons (R T : List Char) (hne : R ≠ [])
    (hw : ∀ c ∈ R, isWordChar c = true)
    (hT : ∀ d, T.head? = some d → isWordChar d = false) :
    runsFrom false (R ++ T) = R :: runsFrom false T := by
  rw [runsFrom_append_of_stop R T hT, runsFrom_all_word R hne hw]
  rfl

lemma runsFrom_splitWs : ∀ (n : ℕ) (s : List Char), s.length ≤ n →
    runsFrom false s = ((splitWs s).map (runsFrom false)).flatten := by
  intro n
  induction n with
  | zero =>
    intro s hlen
    have hs : s = [] := List.length_eq_zero.mp (Nat.le_zero.mp hlen)
    subst hs
    simp [runsFrom_nil, splitWs, splitWsAux]
  | succ n ih =>
    intro s hlen
    cases s with
    | nil => simp [runsFrom_nil, splitWs, splitWsAux]
    | cons c cs =>
      by_cases hc : wsp c = true
      · rw [splitWs_cons_of_wsp c cs hc]
        rw [runsFrom_false_nonword c cs (wsp_not_word c hc)]
        exact ih cs (by simp only [List.length_cons] at hlen; omega)
      · have hcf : wsp c = false := by simpa using hc
        rw [splitWs_cons_of_not_wsp c cs hcf]
        have hsplit : c :: cs = (c :: cs.takeWhile (fun d => !wsp d)) ++
            cs.dropWhile (fun d => !wsp d) := by
          rw [show (c :: cs.takeWhile (fun d => !wsp d)) ++ cs.dropWhile (fun d => !wsp d) =
            c :: (cs.takeWhile (fun d => !wsp d) ++ cs.dropWhile (fun d => !wsp d)) from rfl]
          rw [List.takeWhile_append_dropWhile]
        rw [hsplit]
        rw [runsFrom_append_of_stop _ _ (fun d hd => by
          have hw : (fun d => !wsp d) d = false := head_dropWhile (fun d => !wsp d) cs d hd
          have hw2 : wsp d = true := by simpa using hw
          exact wsp_not_word d hw2)]
        rw [ih (cs.dropWhile (fun d => !wsp d)) (by
          have := dropWhile_len_le (fun d => !wsp d) cs
          simp only [List.length_cons] at hlen
          omega)]
        simp

lemma runsFrom_splitWs_eq (s : List Char) :
    runsFrom false s = ((splitWs s).map (runsFrom false)).flatten :=
  runsFrom_splitWs s.length s le_rfl

/-! ### Case-insensitive literal matching facts -/

lemma eatLit_some_decomp : ∀ (w s r : List Char), eatLit w s = some r →
    ∃ pre, s = pre ++ r ∧ lowerStr pre = w := by
  intro w
  induction w with
  | nil =>
    intro s r h
    simp only [eatLit, Option.some.injEq] at h
    exact ⟨[], by simp [h], rfl⟩
  | cons l ls ih =>
    intro s r h
    cases s with
    | nil => simp [eatLit] at h
    | cons c cs =>
      simp only [eatLit] at h
      split at h
      · rename_i hcl
        obtain ⟨pre, hpre, hlow⟩ := ih cs r h
        refine ⟨c :: pre, by simp [hpre], ?_⟩
        simp only [lowerStr, List.map_cons, List.cons.injEq]
        exact ⟨hcl, hlow⟩
      · exact absurd h (by simp)

lemma eatLit_append : ∀ (pre w rest : List Char), lowerStr pre = w →
    eatLit w (pre ++ rest) = some rest := by
  intro pre
  induction pre with
  | nil =>
    intro w rest h
    simp only [lowerStr, List.map_nil] at h
    subst h
    simp [eatLit]
  | cons c pre2 ih =>
    intro w rest h
    simp only [lowerStr, List.map_cons] at h
    subst h
    rw [show (c :: pre2) ++ rest = c :: (pre2 ++ rest) from rfl]
    simp only [eatLit, if_pos rfl]
    exact ih _ rest rfl

lemma pre_word_of_lower : ∀ (pre w : List Char), lowerStr pre = w →
    (∀ c ∈ w, isWordChar c = true) → ∀ c ∈ pre, isWordChar c = true := by
  intro pre
  induction pre with
  | nil => intro w _ _ c hc; simp at hc
  | cons a pre2 ih =>
    intro w h hw c hc
    simp only [lowerStr, List.map_cons] at h
    subst h
    rcases List.mem_cons.mp hc with rfl | hc2
    · exact word_of_toLower c (Char.toLower c) (hw _ (by simp)) rfl
    · exact ih _ rfl (fun d hd => hw d (List.mem_cons_of_mem _ hd)) c hc2

lemma pre_ne_nil (pre : List Char) (c0 : Char) (wr : List Char)
    (h : lowerStr pre = c0 :: wr) : pre ≠ [] := by
  intro hp
  subst hp
  simp [lowerStr] at h

lemma tryFiller_some_decomp (c0 : Char) (wr s : List Char) (r : List Char × Bool)
    (hw : ∀ c ∈ (c0 :: wr), isWordChar c = true)
    (h : tryFiller (c0 :: wr) s = some r) :
    ∃ pre rest, s = pre ++ rest ∧ lowerStr pre = c0 :: wr ∧ pre ≠ [] ∧
      (∀ c ∈ pre, isWordChar c = true) ∧
      ((r = (rest, true) ∧ ∀ d, rest.head? = some d → isWordChar d = false) ∨
       (∃ d ds, rest = d :: ds ∧ isWordChar d = false ∧ r = (ds, false))) := by
  simp only [tryFiller] at h
  rcases he : eatLit (c0 :: wr) s with _ | r0
  · rw [he] at h; exact absurd h (by simp)
  · rw [he] at h
    obtain ⟨pre, hpre, hlow⟩ := eatLit_some_decomp (c0 :: wr) s r0 he
    refine ⟨pre, r0, hpre, hlow, pre_ne_nil pre c0 wr hlow,
      pre_word_of_lower pre _ hlow hw, ?_⟩
    cases r0 with
    | nil =>
      obtain rfl : (([], true) : List Char × Bool) = r := by simpa using h
      exact Or.inl ⟨rfl, by intro d hd; simp at hd⟩
    | cons d ds =>
      simp only at h
      split at h
      · exact absurd h (by simp)
      · rename_i hword
        split at h
        · obtain rfl : ((ds, false) : List Char × Bool) = r := by simpa using h
          exact Or.inr ⟨d, ds, rfl, by simpa using hword, rfl⟩
        · obtain rfl : ((d :: ds, true) : List Char × Bool) = r := by simpa using h
          refine Or.inl ⟨rfl, ?_⟩
          intro e he
          simp only [List.head?_cons, Option.some.injEq] at he
          subst he
          simpa using hword

lemma tryFiller_some_of_run (c0 : Char) (wr R T : List Char) (hR : lowerStr R = c0 :: wr)
    (hT : ∀ d, T.head? = some d → isWordChar d = false) :
    ∃ r, tryFiller (c0 :: wr) (R ++ T) = some r := by
  have he : eatLit (c0 :: wr) (R ++ T) = some T := eatLit_append R (c0 :: wr) T hR
  cases T with
  | nil =>
    refine ⟨([], true), ?_⟩
    have he2 : eatLit (c0 :: wr) R = some [] := by rwa [List.append_nil] at he
    simp [tryFiller, he2]
  | cons d ds =>
    have hd : isWordChar d = false := hT d rfl
    by_cases hp : d = ',' ∨ d = '.'
    · exact ⟨(ds, false), by simp [tryFiller, he, hd, hp]⟩
    · exact ⟨(d :: ds, true), by simp [tryFiller, he, hd, hp]⟩

lemma tryFiller_none_of_nonword (c0 : Char) (wr : List Char) (c : Char) (cs : List Char)
    (h0 : isWordChar c0 = true) (hc : isWordChar c = false) :
    tryFiller (c0 :: wr) (c :: cs) = none := by
  have he : eatLit (c0 :: wr) (c :: cs) = none := by
    simp only [eatLit]
    rw [if_neg (fun hcl => absurd (word_of_toLower c c0 h0 hcl) (by simp [hc]))]
  simp [tryFiller, he]

/-! ### Equations of the replace-all scan -/

lemma removePat_nil (c0 : Char) (wr : List Char) (b : Bool) : removePat c0 wr b [] = [] := by
  simp [removePat]

lemma removePat_cons_true (c0 : Char) (wr : List Char) (c : Char) (cs : List Char) :
    removePat c0 wr true (c :: cs) = c :: removePat c0 wr (isWordChar c) cs := by
  simp [removePat]

lemma removePat_cons_none (c0 : Char) (wr : List Char) (c : Char) (cs : List Char)
    (h : tryFiller (c0 :: wr) (c :: cs) = none) :
    removePat c0 wr false (c :: cs) = c :: removePat c0 wr (isWordChar c) cs := by
  rw [removePat]
  rw [if_neg (by simp)]
  split
  · rename_i r heq
    rw [h] at heq
    cases heq
  · rfl

lemma removePat_cons_some (c0 : Char) (wr : List Char) (c : Char) (cs : List Char)
    (r : List Char × Bool) (h : tryFiller (c0 :: wr) (c :: cs) = some r) :
    removePat c0 wr false (c :: cs) = removePat c0 wr r.2 r.1 := by
  rw [removePat]
  rw [if_neg (by simp)]
  split
  · rename_i r2 heq
    rw [h] at heq
    injection heq with heq2
    subst heq2
    rfl
  · rename_i heq
    rw [h] at heq
    cases heq

lemma removePat_true_eq (c0 : Char) (wr : List Char) : ∀ (s : List Char),
    removePat c0 wr true s = s.takeWhile isWordChar ++
      (match s.dropWhile isWordChar with
       | [] => []
       | d :: ds => d :: removePat c0 wr false ds) := by
  intro s
  induction s with
  | nil => simp [removePat_nil]
  | cons c cs ih =>
    rw [removePat_cons_true]
    by_cases hc : isWordChar c = true
    · rw [hc, List.takeWhile_cons_of_pos hc, List.dropWhile_cons_of_pos hc, ih]
      rfl
    · have hcf : isWordChar c = false := by simpa using hc
      rw [hcf, List.takeWhile_cons_of_neg (by simp [hcf]),
        List.dropWhile_cons_of_neg (by simp [hcf])]
      rfl

/-! ### The scan is the identity when no run spells the pattern -/

lemma removePat_id : ∀ (n : ℕ) (c0 : Char) (wr : List Char),
    (∀ c ∈ (c0 :: wr), isWordChar c = true) →
    ∀ (s : List Char) (b : Bool), s.length ≤ n →
    (∀ r ∈ runsFrom b s, lowerStr r ≠ c0 :: wr) →
    removePat c0 wr b s = s := by
  intro n
  induction n with
  | zero =>
    intro c0 wr hw s b hlen hruns
    have hs : s = [] := List.length_eq_zero.mp (Nat.le_zero.mp hlen)
    subst hs
    exact removePat_nil c0 wr b
  | succ n ih =>
    intro c0 wr hw s b hlen hruns
    cases s with
    | nil => exact removePat_nil c0 wr b
    | cons c cs =>
      cases b with
      | true =>
        rw [removePat_cons_true]
        rw [ih c0 wr hw cs (isWordChar c) (by simp only [List.length_cons] at hlen; omega)
          (by rw [← runsFrom_true_cons]; exact hruns)]
      | false =>
        rcases ht : tryFiller (c0 :: wr) (c :: cs) with _ | r
        · have hnext : ∀ r ∈ runsFrom (isWordChar c) cs, lowerStr r ≠ c0 :: wr := by
            intro r hr
            by_cases hc : isWordChar c = true
            · rw [hc, runsFrom_true_eq] at hr
              refine hruns r ?_
              rw [runsFrom_false_word c cs hc]
              exact List.mem_cons_of_mem _ hr
            · have hcf : isWordChar c = false := by simpa using hc
              rw [hcf] at hr
              refine hruns r ?_
              rw [runsFrom_false_nonword c cs hcf]
              exact hr
          rw [removePat_cons_none c0 wr c cs ht]
          rw [ih c0 wr hw cs (isWordChar c)
            (by simp only [List.length_cons] at hlen; omega) hnext]
        · obtain ⟨pre, rest, hs, hlow, hpne, hpw, hcase⟩ :=
            tryFiller_some_decomp c0 wr (c :: cs) r hw ht
          have hrest : ∀ d, rest.head? = some d → isWordChar d = false := by
            rcases hcase with ⟨_, h2⟩ | ⟨d, ds, hrest0, hd, _⟩
            · exact h2
            · intro e he
              rw [hrest0] at he
              simp only [List.head?_cons, Option.some.injEq] at he
              subst he
              exact hd
          have hmem : pre ∈ runsFrom false (c :: cs) := by
            rw [hs, runsFrom_run_cons pre rest hpne hpw hrest]
            simp
          exact absurd hlow (hruns pre hmem)

lemma removePat_id_of_runs (c0 : Char) (wr s : List Char)
    (hw : ∀ c ∈ (c0 :: wr), isWordChar c = true)
    (hruns : ∀ r ∈ runsFrom false s, lowerStr r ≠ c0 :: wr) :
    removePat c0 wr false s = s :=
  removePat_id s.length c0 wr hw s false le_rfl hruns

/-! ### The runs of the scan output are runs of the input, none spelling the pattern -/

lemma removePat_runs : ∀ (n : ℕ) (c0 : Char) (wr : List Char),
    (∀ c ∈ (c0 :: wr), isWordChar c = true) →
    ∀ (s : List Char), s.length ≤ n →
    ∀ r ∈ runsFrom false (removePat c0 wr false s),
      r ∈ runsFrom false s ∧ lowerStr r ≠ c0 :: wr := by
  intro n
  induction n with
  | zero =>
    intro c0 wr hw s hlen r hr
    have hs : s = [] := List.length_eq_zero.mp (Nat.le_zero.mp hlen)
    subst hs
    rw [removePat_nil, runsFrom_nil] at hr
    simp at hr
  | succ n ih =>
    intro c0 wr hw s hlen r hr
    cases s with
    | nil =>
      rw [removePat_nil, runsFrom_nil] at hr
      simp at hr
    | cons c cs =>
      by_cases hc : isWordChar c = true
      · rcases ht : tryFiller (c0 :: wr) (c :: cs) with _ | rr
        · -- no match here: the head run is copied unchanged
          rw [removePat_cons_none c0 wr c cs ht, hc, removePat_true_eq c0 wr cs] at hr
          have hsplit : c :: cs = (c :: cs.takeWhile isWordChar) ++ cs.dropWhile isWordChar := by
            rw [show (c :: cs.takeWhile isWordChar) ++ cs.dropWhile isWordChar =
              c :: (cs.takeWhile isWordChar ++ cs.dropWhile isWordChar) from rfl]
            rw [List.takeWhile_append_dropWhile]
          have hRw : ∀ e ∈ c :: cs.takeWhile isWordChar, isWordChar e = true := by
            intro e he
            rcases List.mem_cons.mp he with rfl | he2
            · exact hc
            · exact mem_takeWhile isWordChar cs e he2
          have hRno : lowerStr (c :: cs.takeWhile isWordChar) ≠ c0 :: wr := by
            intro hlow
            obtain ⟨rr2, hrr2⟩ := tryFiller_some_of_run c0 wr (c :: cs.takeWhile isWordChar)
              (cs.dropWhile isWordChar) hlow
              (fun d hd => head_dropWhile isWordChar cs d hd)
            rw [← hsplit] at hrr2
            rw [ht] at hrr2
            cases hrr2
          rcases hdw : cs.dropWhile isWordChar with _ | ⟨d, ds⟩
          · rw [hdw] at hr
            rw [show c :: (cs.takeWhile isWordChar ++ []) = (c :: cs.takeWhile isWordChar) ++ []
              from by simp] at hr
            rw [runsFrom_append_of_stop _ [] (by intro d hd; simp at hd)] at hr
            rw [runsFrom_all_word _ (by simp) hRw, runsFrom_nil] at hr
            simp only [List.append_nil, List.mem_singleton] at hr
            subst hr
            refine ⟨?_, hRno⟩
            rw [runsFrom_false_word c cs hc]
            simp
          · have hd : isWordChar d = false := by
              refine head_dropWhile isWordChar cs d ?_
              rw [hdw]
              rfl
            rw [hdw] at hr
            rw [show c :: (cs.takeWhile isWordChar ++ d :: removePat c0 wr false ds) =
              (c :: cs.takeWhile isWordChar) ++ (d :: removePat c0 wr false ds) from rfl] at hr
            rw [runsFrom_run_cons _ _ (by simp) hRw (by
              intro e he
              simp only [List.head?_cons, Option.some.injEq] at he
              subst he
              exact hd)] at hr
            rw [runsFrom_false_nonword d _ hd] at hr
            rcases List.mem_cons.mp hr with rfl | hr2
            · refine ⟨?_, hRno⟩
              rw [runsFrom_false_word c cs hc]
              simp
            · have hlds : ds.length ≤ n := by
                have h1 := dropWhile_len_le isWordChar cs
                rw [hdw] at h1
                simp only [List.length_cons] at h1 hlen
                omega
              obtain ⟨h1, h2⟩ := ih c0 wr hw ds hlds r hr2
              refine ⟨?_, h2⟩
              rw [runsFrom_false_word c cs hc, hdw, runsFrom_false_nonword d ds hd]
              exact List.mem_cons_of_mem _ h1
        · -- a match at the head: the matched run disappears
          rw [removePat_cons_some c0 wr c cs rr ht] at hr
          obtain ⟨pre, rest, hs, hlow, hpne, hpw, hcase⟩ :=
            tryFiller_some_decomp c0 wr (c :: cs) rr hw ht
          have hlenpre : pre.length + rest.length = cs.length + 1 := by
            have := congrArg List.length hs
            simp only [List.length_cons, List.length_append] at this
            omega
          have hprepos : 1 ≤ pre.length := by
            cases pre with
            | nil => exact absurd rfl hpne
            | cons p ps => simp
          rcases hcase with ⟨hrr, hstop⟩ | ⟨d, ds, hrest, hd, hrr⟩
          · subst hrr
            cases rest with
            | nil =>
              rw [removePat_nil, runsFrom_nil] at hr
              simp at hr
            | cons d ds =>
              have hdw : isWordChar d = false := hstop d rfl
              rw [removePat_cons_true, hdw, runsFrom_false_nonword d _ hdw] at hr
              have hlds : ds.length ≤ n := by
                simp only [List.length_cons] at hlenpre hlen
                omega
              obtain ⟨h1, h2⟩ := ih c0 wr hw ds hlds r hr
              refine ⟨?_, h2⟩
              rw [hs, runsFrom_run_cons pre (d :: ds) hpne hpw hstop,
                runsFrom_false_nonword d ds hdw]
              exact List.mem_cons_of_mem _ h1
          · subst hrr
            subst hrest
            have hlds : ds.length ≤ n := by
              simp only [List.length_cons] at hlenpre hlen
              omega
            obtain ⟨h1, h2⟩ := ih c0 wr hw ds hlds r hr
            refine ⟨?_, h2⟩
            have hstop2 : ∀ e, (d :: ds).head? = some e → isWordChar e = false := by
              intro e he
              simp only [List.head?_cons, Option.some.injEq] at he
              subst he
              exact hd
            rw [hs, runsFrom_run_cons pre (d :: ds) hpne hpw hstop2,
              runsFrom_false_nonword d ds hd]
            exact List.mem_cons_of_mem _ h1
      · -- head char is not a word char: never a match position
        have hcf : isWordChar c = false := by simpa using hc
        rw [removePat_cons_none c0 wr c cs
          (tryFiller_none_of_nonword c0 wr c cs (hw c0 (by simp)) hcf), hcf,
          runsFrom_false_nonword c _ hcf] at hr
        obtain ⟨h1, h2⟩ := ih c0 wr hw cs
          (by simp only [List.length_cons] at hlen; omega) r hr
        exact ⟨by rw [runsFrom_false_nonword c cs hcf]; exact h1, h2⟩

/-! ### The filler fold -/

/-- One replace-all pass of the filler loop of `filter_transcription_output`. -/
def removeOnePat (acc : List Char) (w : List Char) : List Char :=
  match w with
  | [] => acc
  | c0 :: wr => removePat c0 wr false acc

lemma fillersRemoved_eq_foldl (s : List Char) :
    fillersRemoved s = FILLER_WORDS.foldl removeOnePat s := rfl

lemma foldl_removePat_runs : ∀ (ws : List (List Char)),
    (∀ w ∈ ws, w ≠ [] ∧ ∀ c ∈ w, isWordChar c = true) →
    ∀ (acc : List Char) (r : List Char), r ∈ runsFrom false (ws.foldl removeOnePat acc) →
      r ∈ runsFrom false acc ∧ ∀ w ∈ ws, lowerStr r ≠ w := by
  intro ws
  induction ws with
  | nil =>
    intro _ acc r hr
    exact ⟨by simpa using hr, by simp⟩
  | cons w ws2 ih =>
    intro h acc r hr
    rw [List.foldl_cons] at hr
    obtain ⟨h1, h2⟩ := ih (fun u hu => h u (by simp [hu])) (removeOnePat acc w) r hr
    obtain ⟨hne, hword⟩ := h w (by simp)
    cases w with
    | nil => exact absurd rfl hne
    | cons c0 wr =>
      obtain ⟨h3, h4⟩ := removePat_runs acc.length c0 wr hword acc le_rfl r h1
      refine ⟨h3, ?_⟩
      intro u hu
      rcases List.mem_cons.mp hu with rfl | hu2
      · exact h4
      · exact h2 u hu2

lemma foldl_removePat_id : ∀ (ws : List (List Char)),
    (∀ w ∈ ws, w ≠ [] ∧ ∀ c ∈ w, isWordChar c = true) →
    ∀ (acc : List Char), (∀ r ∈ runsFrom false acc, ∀ w ∈ ws, lowerStr r ≠ w) →
      ws.foldl removeOnePat acc = acc := by
  intro ws
  induction ws with
  | nil => intro _ acc _; rfl
  | cons w ws2 ih =>
    intro h acc hacc
    rw [List.foldl_cons]
    obtain ⟨hne, hword⟩ := h w (by simp)
    have hstep : removeOnePat acc w = acc := by
      cases w with
      | nil => rfl
      | cons c0 wr =>
        exact removePat_id_of_runs c0 wr acc hword (fun r hr => hacc r hr _ (by simp))
    rw [hstep]
    exact ih (fun u hu => h u (by simp [hu])) acc (fun r hr u hu => hacc r hr u (by simp [hu]))

lemma FILLER_WORDS_wf : ∀ w ∈ FILLER_WORDS, w ≠ [] ∧ ∀ c ∈ w, isWordChar c = true := by
  decide

lemma fillersRemoved_runs (s : List Char) :
    ∀ r ∈ runsFrom false (fillersRemoved s),
      r ∈ runsFrom false s ∧ ∀ w ∈ FILLER_WORDS, lowerStr r ≠ w := by
  intro r hr
  rw [fillersRemoved_eq_foldl] at hr
  exact foldl_removePat_runs FILLER_WORDS FILLER_WORDS_wf s r hr

lemma fillersRemoved_id (s : List Char)
    (h : ∀ r ∈ runsFrom false s, ∀ w ∈ FILLER_WORDS, lowerStr r ≠ w) :
    fillersRemoved s = s := by
  rw [fillersRemoved_eq_foldl]
  exact foldl_removePat_id FILLER_WORDS FILLER_WORDS_wf s h

/-! ### The stutter collapse is idempotent -/

/-- A word that the stutter collapse may fold: at most four bytes and all
alphabetic after lowercasing. -/
def collapsible (wl : List Char) : Prop := byteLen wl ≤ 4 ∧ wl.all Char.isAlpha = true

lemma countEq_cons_eq (wl v : List Char) (vs : List (List Char)) (h : lowerStr v = wl) :
    countEq wl (v :: vs) = 1 + countEq wl vs := by
  simp [countEq, h]

lemma countEq_cons_ne (wl v : List Char) (vs : List (List Char)) (h : lowerStr v ≠ wl) :
    countEq wl (v :: vs) = 0 := by
  simp [countEq, h]

lemma countEq_zero_of_head (wl : List Char) (X : List (List Char))
    (h : ∀ v, X.head? = some v → lowerStr v ≠ wl) : countEq wl X = 0 := by
  cases X with
  | nil => rfl
  | cons v vs => exact countEq_cons_ne wl v vs (h v rfl)

lemma countEq_zero_head (wl : List Char) (ws : List (List Char)) (h : countEq wl ws = 0) :
    ∀ v, ws.head? = some v → lowerStr v ≠ wl := by
  intro v hv hlow
  cases ws with
  | nil => simp at hv
  | cons u us =>
    simp only [List.head?_cons, Option.some.injEq] at hv
    rw [hv] at h
    rw [countEq_cons_eq wl v us hlow] at h
    omega

lemma countEq_drop_head (wl : List Char) : ∀ (ws : List (List Char)) (v : List Char)
    (vs : List (List Char)), ws.drop (countEq wl ws) = v :: vs → lowerStr v ≠ wl := by
  intro ws
  induction ws with
  | nil => intro v vs h; simp at h
  | cons u us ih =>
    intro v vs h
    by_cases hu : lowerStr u = wl
    · rw [countEq_cons_eq wl u us hu,
        show (1 + countEq wl us) = countEq wl us + 1 from by omega,
        List.drop_succ_cons] at h
      exact ih v vs h
    · rw [countEq_cons_ne wl u us hu, List.drop_zero] at h
      injection h with h1 h2
      subst h1
      exact hu

lemma collapseAux_cons3 (w : List Char) (ws : List (List Char)) :
    (¬ collapsible (lowerStr w) ∧ collapseAux (w :: ws) = w :: collapseAux ws) ∨
    (collapsible (lowerStr w) ∧ countEq (lowerStr w) ws ≤ 1 ∧
      collapseAux (w :: ws) = w :: collapseAux ws) ∨
    (collapsible (lowerStr w) ∧ 1 + countEq (lowerStr w) ws ≥ 3 ∧
      collapseAux (w :: ws) = w :: collapseAux (ws.drop (countEq (lowerStr w) ws))) := by
  by_cases hcol : collapsible (lowerStr w)
  · by_cases hcnt : 1 + countEq (lowerStr w) ws ≥ 3
    · refine Or.inr (Or.inr ⟨hcol, hcnt, ?_⟩)
      simp only [collapseAux]
      rw [if_pos (show byteLen (lowerStr w) ≤ 4 ∧ (lowerStr w).all Char.isAlpha = true
        from hcol), if_pos hcnt]
      have harith : 1 + countEq (lowerStr w) ws - 1 = countEq (lowerStr w) ws := by omega
      rw [harith]
    · refine Or.inr (Or.inl ⟨hcol, by omega, ?_⟩)
      simp only [collapseAux]
      rw [if_pos (show byteLen (lowerStr w) ≤ 4 ∧ (lowerStr w).all Char.isAlpha = true
        from hcol), if_neg hcnt]
  · refine Or.inl ⟨hcol, ?_⟩
    simp only [collapseAux]
    rw [if_neg (show ¬(byteLen (lowerStr w) ≤ 4 ∧ (lowerStr w).all Char.isAlpha = true)
      from hcol)]

lemma collapseAux_head : ∀ (ws : List (List Char)), (collapseAux ws).head? = ws.head? := by
  intro ws
  cases ws with
  | nil => simp [collapseAux]
  | cons w ws2 =>
    rcases collapseAux_cons3 w ws2 with ⟨_, h⟩ | ⟨_, _, h⟩ | ⟨_, _, h⟩ <;> rw [h] <;> rfl

/-- No collapsible word starts a run of three or more case-equal copies. -/
def NoTri (ws : List (List Char)) : Prop :=
  ∀ u vs, (u :: vs) <:+ ws → collapsible (lowerStr u) → countEq (lowerStr u) vs ≤ 1

lemma collapseAux_fixed : ∀ (n : ℕ) (ws : List (List Char)), ws.length ≤ n → NoTri ws →
    collapseAux ws = ws := by
  intro n
  induction n with
  | zero =>
    intro ws hlen _
    have hs : ws = [] := List.length_eq_zero.mp (Nat.le_zero.mp hlen)
    subst hs
    simp [collapseAux]
  | succ n ih =>
    intro ws hlen h
    cases ws with
    | nil => simp [collapseAux]
    | cons w ws2 =>
      have htail : NoTri ws2 := fun u vs hsuf hcol =>
        h u vs (hsuf.trans (List.suffix_cons w ws2)) hcol
      rcases collapseAux_cons3 w ws2 with ⟨_, heq⟩ | ⟨_, _, heq⟩ | ⟨hcol, hcnt, heq⟩
      · rw [heq, ih ws2 (by simp only [List.length_cons] at hlen; omega) htail]
      · rw [heq, ih ws2 (by simp only [List.length_cons] at hlen; omega) htail]
      · have hle := h w ws2 (List.suffix_refl _) hcol
        omega

lemma collapseAux_noTri : ∀ (n : ℕ) (ws : List (List Char)), ws.length ≤ n →
    NoTri (collapseAux ws) := by
  intro n
  induction n with
  | zero =>
    intro ws hlen
    have hs : ws = [] := List.length_eq_zero.mp (Nat.le_zero.mp hlen)
    subst hs
    intro u vs hsuf _
    rw [show collapseAux [] = [] from by simp [collapseAux]] at hsuf
    exact absurd (List.suffix_nil.mp hsuf) (by simp)
  | succ n ih =>
    intro ws hlen
    cases ws with
    | nil =>
      intro u vs hsuf _
      rw [show collapseAux [] = [] from by simp [collapseAux]] at hsuf
      exact absurd (List.suffix_nil.mp hsuf) (by simp)
    | cons w ws2 =>
      have hlen2 : ws2.length ≤ n := by simp only [List.length_cons] at hlen; omega
      rcases collapseAux_cons3 w ws2 with ⟨hncol, heq⟩ | ⟨hcol, hcnt, heq⟩ |
        ⟨hcol, hcnt, heq⟩
      · -- head word not collapsible
        rw [heq]
        intro u vs hsuf hcolu
        rcases List.suffix_cons_iff.mp hsuf with hsame | htl
        · injection hsame with h1 h2
          subst h1
          exact absurd hcolu hncol
        · exact ih ws2 hlen2 u vs htl hcolu
      · -- head word collapsible with fewer than three copies
        rw [heq]
        intro u vs hsuf hcolu
        rcases List.suffix_cons_iff.mp hsuf with hsame | htl
        · injection hsame with h1 h2
          subst h1
          subst h2
          rcases Nat.le_one_iff_eq_zero_or_eq_one.mp hcnt with hc0 | hc1
          · have hz : countEq (lowerStr u) (collapseAux ws2) = 0 := by
              refine countEq_zero_of_head _ _ ?_
              intro v hv
              rw [collapseAux_head] at hv
              exact countEq_zero_head (lowerStr u) ws2 hc0 v hv
            omega
          · -- exactly one following copy survives, and nothing follows it
            cases ws2 with
            | nil => simp [countEq] at hc1
            | cons v vs2 =>
              by_cases hv : lowerStr v = lowerStr u
              · have hz2 : countEq (lowerStr u) vs2 = 0 := by
                  rw [countEq_cons_eq _ v vs2 hv] at hc1
                  omega
                have hshape : collapseAux (v :: vs2) = v :: collapseAux vs2 := by
                  rcases collapseAux_cons3 v vs2 with ⟨_, h2⟩ | ⟨_, _, h2⟩ |
                    ⟨_, hc3, h2⟩
                  · exact h2
                  · exact h2
                  · rw [hv, hz2] at hc3
                    omega
                rw [hshape]
                rw [countEq_cons_eq _ v _ hv]
                have hz3 : countEq (lowerStr u) (collapseAux vs2) = 0 := by
                  refine countEq_zero_of_head _ _ ?_
                  intro v2 hv2
                  rw [collapseAux_head] at hv2
                  exact countEq_zero_head (lowerStr u) vs2 hz2 v2 hv2
                omega
              · have hz : countEq (lowerStr u) (collapseAux (v :: vs2)) = 0 := by
                  refine countEq_zero_of_head _ _ ?_
                  intro v2 hv2
                  rw [collapseAux_head] at hv2
                  simp only [List.head?_cons, Option.some.injEq] at hv2
                  subst hv2
                  exact hv
                omega
        · exact ih ws2 hlen2 u vs htl hcolu
      · -- head run of three or more collapses
        rw [heq]
        intro u vs hsuf hcolu
        have hlen3 : (ws2.drop (countEq (lowerStr w) ws2)).length ≤ n := by
          rw [List.length_drop]
          omega
        rcases List.suffix_cons_iff.mp hsuf with hsame | htl
        · injection hsame with h1 h2
          subst h1
          subst h2
          have hz : countEq (lowerStr u)
              (collapseAux (ws2.drop (countEq (lowerStr u) ws2))) = 0 := by
            refine countEq_zero_of_head _ _ ?_
            intro v hv
            rw [collapseAux_head] at hv
            cases hdrop : ws2.drop (countEq (lowerStr u) ws2) with
            | nil => rw [hdrop] at hv; simp at hv
            | cons d ds =>
              rw [hdrop] at hv
              simp only [List.head?_cons, Option.some.injEq] at hv
              rw [hv] at hdrop
              exact countEq_drop_head (lowerStr u) ws2 v ds hdrop
          omega
        · exact ih (ws2.drop (countEq (lowerStr w) ws2)) hlen3 u vs htl hcolu

lemma collapseAux_idem (ws : List (List Char)) :
    collapseAux (collapseAux ws) = collapseAux ws :=
  collapseAux_fixed (collapseAux ws).length _ le_rfl (collapseAux_noTri ws.length ws le_rfl)

lemma collapseAux_subset : ∀ (n : ℕ) (ws : List (List Char)), ws.length ≤ n →
    ∀ w ∈ collapseAux ws, w ∈ ws := by
  intro n
  induction n with
  | zero =>
    intro ws hlen u hu
    have hs : ws = [] := List.length_eq_zero.mp (Nat.le_zero.mp hlen)
    subst hs
    rw [show collapseAux [] = [] from by simp [collapseAux]] at hu
    simp at hu
  | succ n ih =>
    intro ws hlen u hu
    cases ws with
    | nil =>
      rw [show collapseAux [] = [] from by simp [collapseAux]] at hu
      simp at hu
    | cons w ws2 =>
      have hlen2 : ws2.length ≤ n := by simp only [List.length_cons] at hlen; omega
      rcases collapseAux_cons3 w ws2 with ⟨_, heq⟩ | ⟨_, _, heq⟩ | ⟨_, _, heq⟩ <;>
        rw [heq] at hu
      · rcases List.mem_cons.mp hu with rfl | hu2
        · simp
        · exact List.mem_cons_of_mem _ (ih ws2 hlen2 u hu2)
      · rcases List.mem_cons.mp hu with rfl | hu2
        · simp
        · exact List.mem_cons_of_mem _ (ih ws2 hlen2 u hu2)
      · rcases List.mem_cons.mp hu with rfl | hu2
        · simp
        · have hlen3 : (ws2.drop (countEq (lowerStr w) ws2)).length ≤ n := by
            rw [List.length_drop]
            omega
          exact List.mem_cons_of_mem _
            (List.mem_of_mem_drop (ih _ hlen3 u hu2))

/-! ### Assembling the idempotence of the transcription filter -/

lemma collapseSpaces_all_wsp : ∀ (n : ℕ) (s : List Char), s.length ≤ n →
    (∀ c ∈ s, wsp c = true) → ∀ c ∈ collapseSpaces s, wsp c = true := by
  intro n
  induction n with
  | zero =>
    intro s hlen h c hc
    have hs : s = [] := List.length_eq_zero.mp (Nat.le_zero.mp hlen)
    subst hs
    rw [show collapseSpaces [] = [] from by simp [collapseSpaces]] at hc
    simp at hc
  | succ n ih =>
    intro s hlen h c hc
    cases s with
    | nil =>
      rw [show collapseSpaces [] = [] from by simp [collapseSpaces]] at hc
      simp at hc
    | cons a as =>
      cases as with
      | nil =>
        rw [show collapseSpaces [a] = [a] from by simp [collapseSpaces]] at hc
        simp only [List.mem_singleton] at hc
        rw [hc]
        exact h a (by simp)
      | cons d cs =>
        have ha : wsp a = true := h a (by simp)
        have hd2 : wsp d = true := h d (by simp)
        rw [show collapseSpaces (a :: d :: cs) =
            ' ' :: collapseSpaces ((d :: cs).dropWhile wsp) from by
          simp [collapseSpaces, ha, hd2]] at hc
        rcases List.mem_cons.mp hc with rfl | hc2
        · decide
        · refine ih ((d :: cs).dropWhile wsp) ?_ ?_ c hc2
          · have hw := dropWhile_len_le wsp (d :: cs)
            simp only [List.length_cons] at hw hlen ⊢
            omega
          · intro e he
            have hmem : e ∈ d :: cs := (List.dropWhile_suffix wsp).subset he
            exact h e (List.mem_cons_of_mem a hmem)

lemma filter_nil : filter_transcription_output [] = [] := by
  have h : is_hallucination [] = true := by
    simp [is_hallucination, trimStr, byteLen]
  simp [filter_transcription_output, h]

lemma filter_eq_of_not_halluc (x : List Char) (h : is_hallucination x = false) :
    filter_transcription_output x =
      (if byteLen (trimStr (collapseSpaces (collapse_stutters (fillersRemoved x)))) < 2
       then []
       else if is_hallucination
           (trimStr (collapseSpaces (collapse_stutters (fillersRemoved x)))) = true
       then []
       else trimStr (collapseSpaces (collapse_stutters (fillersRemoved x)))) := by
  simp [filter_transcription_output, h]

lemma trimStr_joinSp (cws : List (List Char)) (hne : cws ≠ [])
    (htok : ∀ u ∈ cws, u ≠ [] ∧ ∀ c ∈ u, wsp c = false) :
    trimStr (joinSp cws) = joinSp cws := by
  cases cws with
  | nil => exact absurd rfl hne
  | cons u us =>
    refine trimStr_eq_self _ ?_ ?_
    · intro c hc2
      rw [joinSp_head u us (htok u (by simp)).1] at hc2
      exact (htok u (by simp)).2 c (List.mem_of_mem_head? hc2)
    · intro c hc2
      obtain ⟨u2, hu2, hcu⟩ := joinSp_getLast (u :: us) (fun v hv => (htok v hv).1) c hc2
      exact (htok u2 hu2).2 c hcu

lemma filter_fix_of_tokens (cws : List (List Char)) (hne : cws ≠ [])
    (htok : ∀ u ∈ cws, u ≠ [] ∧ ∀ c ∈ u, wsp c = false)
    (hfix : collapseAux cws = cws)
    (hruns : ∀ u ∈ cws, ∀ r ∈ runsFrom false u, ∀ w ∈ FILLER_WORDS, lowerStr r ≠ w)
    (hh : is_hallucination (joinSp cws) = false)
    (hlen : ¬ byteLen (joinSp cws) < 2) :
    filter_transcription_output (joinSp cws) = joinSp cws := by
  have hsplit : splitWs (joinSp cws) = cws := splitWs_joinSp cws htok
  have hfill : fillersRemoved (joinSp cws) = joinSp cws := by
    refine fillersRemoved_id _ ?_
    intro r hr w hw
    rw [runsFrom_splitWs_eq, hsplit, List.mem_flatten] at hr
    obtain ⟨l, hl, hrl⟩ := hr
    rw [List.mem_map] at hl
    obtain ⟨u, hu, rfl⟩ := hl
    exact hruns u hu r hrl w hw
  have hcoll : collapse_stutters (joinSp cws) = joinSp cws := by
    simp only [collapse_stutters, hsplit]
    cases cws with
    | nil => exact absurd rfl hne
    | cons u us =>
      simp only [List.isEmpty_cons, Bool.false_eq_true, if_false]
      rw [hfix]
  have hspace : collapseSpaces (joinSp cws) = joinSp cws :=
    collapseSpaces_eq_self _ (joinSp_chain cws htok)
  have htrim : trimStr (joinSp cws) = joinSp cws := trimStr_joinSp cws hne htok
  rw [filter_eq_of_not_halluc _ hh]
  rw [hfill, hcoll, hspace, htrim]
  rw [if_neg hlen, if_neg (by simp [hh])]

/-- C6: `filter_transcription_output` is idempotent. -/
theorem filter_transcription_output_idempotent (x : List Char) :
    filter_transcription_output (filter_transcription_output x) =
      filter_transcription_output x := by
  by_cases hx : is_hallucination x = true
  · rw [show filter_transcription_output x = [] from by
      simp [filter_transcription_output, hx]]
    exact filter_nil
  · have hxf : is_hallucination x = false := by simpa using hx
    rcases hws : splitWs (fillersRemoved x) with _ | ⟨w, ws2⟩
    · have hallw : ∀ c ∈ fillersRemoved x, wsp c = true :=
        splitWs_nil_all_wsp (fillersRemoved x) hws
      have hcs : collapse_stutters (fillersRemoved x) = fillersRemoved x := by
        simp [collapse_stutters, hws]
      have hall2 : ∀ c ∈ collapseSpaces (fillersRemoved x), wsp c = true :=
        collapseSpaces_all_wsp (fillersRemoved x).length _ le_rfl hallw
      have htr : trimStr (collapseSpaces (fillersRemoved x)) = [] :=
        trimStr_nil_of_all_wsp _ hall2
      rw [show filter_transcription_output x = [] from by
        rw [filter_eq_of_not_halluc x hxf, hcs, htr]
        simp [byteLen]]
      exact filter_nil
    · have htok : ∀ u ∈ splitWs (fillersRemoved x), u ≠ [] ∧ ∀ c ∈ u, wsp c = false :=
        splitWs_tokens (fillersRemoved x)
      have hsub : ∀ u ∈ collapseAux (splitWs (fillersRemoved x)),
          u ∈ splitWs (fillersRemoved x) :=
        fun u hu => collapseAux_subset (splitWs (fillersRemoved x)).length _ le_rfl u hu
      have htok2 : ∀ u ∈ collapseAux (splitWs (fillersRemoved x)),
          u ≠ [] ∧ ∀ c ∈ u, wsp c = false := fun u hu => htok u (hsub u hu)
      have hcwsne : collapseAux (splitWs (fillersRemoved x)) ≠ [] := by
        rw [hws]
        rcases collapseAux_cons3 w ws2 with ⟨_, h2⟩ | ⟨_, _, h2⟩ | ⟨_, _, h2⟩ <;>
          rw [h2] <;> simp
      have hcoll : collapse_stutters (fillersRemoved x) =
          joinSp (collapseAux (splitWs (fillersRemoved x))) := by
        simp only [collapse_stutters, hws, List.isEmpty_cons, Bool.false_eq_true, if_false]
      have hruns : ∀ u ∈ collapseAux (splitWs (fillersRemoved x)),
          ∀ r ∈ runsFrom false u, ∀ w2 ∈ FILLER_WORDS, lowerStr r ≠ w2 := by
        intro u hu r hr w2 hw2
        have hmem : r ∈ runsFrom false (fillersRemoved x) := by
          rw [runsFrom_splitWs_eq (fillersRemoved x), List.mem_flatten]
          exact ⟨runsFrom false u, List.mem_map.mpr ⟨u, hsub u hu, rfl⟩, hr⟩
        exact (fillersRemoved_runs x r hmem).2 w2 hw2
      have hspace : collapseSpaces (joinSp (collapseAux (splitWs (fillersRemoved x)))) =
          joinSp (collapseAux (splitWs (fillersRemoved x))) :=
        collapseSpaces_eq_self _ (joinSp_chain _ htok2)
      have htrim : trimStr (joinSp (collapseAux (splitWs (fillersRemoved x)))) =
          joinSp (collapseAux (splitWs (fillersRemoved x))) :=
        trimStr_joinSp _ hcwsne htok2
      rw [filter_eq_of_not_halluc x hxf, hcoll, hspace, htrim]
      by_cases hlen : byteLen (joinSp (collapseAux (splitWs (fillersRemoved x)))) < 2
      · rw [if_pos hlen]
        exact filter_nil
      · rw [if_neg hlen]
        by_cases hht : is_hallucination
            (joinSp (collapseAux (splitWs (fillersRemoved x)))) = true
        · rw [if_pos hht]
          exact filter_nil
        · rw [if_neg hht]
          exact filter_fix_of_tokens _ hcwsne htok2 (collapseAux_idem _) hruns
            (by simpa using hht) hlen

/-! ### Transcription manager (`managers/transcription.rs`) -/

/-- The chunk-transcription state of `TranscriptionManager` as seen after
the condvar wait on `is_loading` has returned (the wait itself blocks and
is not representable in a pure embedding): the engine slot, `None` when no
model is loaded, and the custom-word settings. A loaded engine is an
external component, taken as a function that may fail. -/
structure TranscriptionManager where
  engine : Option (List ℚ → Except (List Char) (List Char))
  custom_words : List (List Char)
  word_correction_threshold : ℚ

/-- The function `transcribe_chunk` (lines 397-506): empty audio
short-circuits to `Ok("")` before the engine is consulted; with no engine
loaded it fails; otherwise the engine output goes through
`apply_custom_words` (only when custom words are configured) and
`filter_transcription_output`. -/
def transcribe_chunk (sdx : List Char → List Char → Bool)
    (m : TranscriptionManager) (audio : List ℚ) : Except (List Char) (List Char) :=
  if audio.isEmpty then Except.ok []
  else
    match m.engine with
    | none => Except.error ("Model is not loaded for chunk transcription.".data)
    | some eng =>
      match eng audio with
      | Except.error e => Except.error e
      | Except.ok result =>
        let corrected :=
          if m.custom_words.isEmpty then result
          else apply_custom_words sdx result m.custom_words m.word_correction_threshold
        Except.ok (filter_transcription_output corrected)

/-- C9: the transcribe lifecycle contract. An empty chunk yields `Ok ""`
whatever the engine state; a non-empty chunk with no engine loaded (after
any pending load has settled) yields an error, not silently empty text. -/
theorem transcribe_chunk_contract (sdx : List Char → List Char → Bool)
    (m : TranscriptionManager) (audio : List ℚ) :
    (audio = [] → transcribe_chunk sdx m audio = Except.ok []) ∧
    (audio ≠ [] → m.engine = none →
      transcribe_chunk sdx m audio =
        Except.error ("Model is not loaded for chunk transcription.".data)) := by
  constructor
  · intro h
    subst h
    rfl
  · intro h1 h2
    cases audio with
    | nil => exact absurd rfl h1
    | cons a as =>
      simp [transcribe_chunk, h2]

def tmNone : TranscriptionManager := ⟨none, [], 0⟩

theorem transcribe_chunk_contract_witness :
    transcribe_chunk (fun _ _ => false) tmNone [] = Except.ok [] ∧
    transcribe_chunk (fun _ _ => false) tmNone [1] =
      Except.error ("Model is not loaded for chunk transcription.".data) :=
  ⟨(transcribe_chunk_contract (fun _ _ => false) tmNone []).1 rfl,
   (transcribe_chunk_contract (fun _ _ => false) tmNone [1]).2 (by simp) rfl⟩

end Talky
